import Mathlib

/-!
Verification of the Polymarket BTC up/down scraper core, shallowly embedded
from the repository sources:

* `src/src/polymarket_btc5m/chain.py` — the `OrderFilled` log decoder;
* `scripts/export_market_trades_chain.py` — the batch backfill scanner, the
  block/timestamp bisection searches and the batch trade normalizer;
* `src/src/polymarket_btc5m/trade_streamer.py` — the real-time trade
  normalizer, the bounded seen-set and the websocket reconnect loop;
* `src/src/polymarket_btc5m/ws_connection.py` — the venue websocket
  reconnect loop (identical backoff logic to the head subscriber);
* `src/src/polymarket_btc5m/market_tracker.py` — the market expiry pass.

Python hex strings are modelled as `List Char`; Python `Decimal` amounts are
modelled as exact rationals (`ℚ`), so statements about `price`, `size` and
`notional` hold up to the source's decimal/float rounding; Python `int` is
modelled as `Int`/`Nat`.  Fallible code returns `Option` (caught exceptions /
"no match") or `Except Unit` (uncaught exceptions).
-/

namespace PolyBtc

/-- Value of one hexadecimal digit, `none` for a non-hex character.  Models
the per-character behaviour of Python `int(s, 16)`. -/
def hexVal? (c : Char) : Option Nat :=
  if '0' ≤ c ∧ c ≤ '9' then some (c.toNat - '0'.toNat)
  else if 'a' ≤ c ∧ c ≤ 'f' then some (c.toNat - 'a'.toNat + 10)
  else if 'A' ≤ c ∧ c ≤ 'F' then some (c.toNat - 'A'.toNat + 10)
  else none

/-- `true` exactly on hexadecimal digits. -/
def isHexChar (c : Char) : Bool :=
  (hexVal? c).isSome

/-- Big-endian accumulation of hex digits; `none` on the first non-hex
character. -/
def parseHexCore : List Char → Nat → Option Nat
  | [], acc => some acc
  | c :: cs, acc =>
    match hexVal? c with
    | some v => parseHexCore cs (16 * acc + v)
    | none => none

/-- Model of Python `int(s, 16)`: an optional `0x`/`0X` marker followed by a
non-empty run of hex digits; `none` (an exception in the source) otherwise.
(Python's additional tolerance for surrounding whitespace, signs and
underscores is not exercised by any input the claims quantify over.) -/
def parseHex? (s : List Char) : Option Nat :=
  let s' := if s.take 2 = ['0', 'x'] ∨ s.take 2 = ['0', 'X'] then s.drop 2 else s
  if s' = [] then none else parseHexCore s' 0

/-- Value of one decimal digit. -/
def decVal? (c : Char) : Option Nat :=
  if '0' ≤ c ∧ c ≤ '9' then some (c.toNat - '0'.toNat) else none

/-- Big-endian accumulation of decimal digits. -/
def parseDecCore : List Char → Nat → Option Nat
  | [], acc => some acc
  | c :: cs, acc =>
    match decVal? c with
    | some v => parseDecCore cs (10 * acc + v)
    | none => none

/-- Model of Python `int(s)` on a plain digit string. -/
def parseDec? (s : List Char) : Option Nat :=
  if s = [] then none else parseDecCore s 0

/-- The big-endian unsigned value of a hex-digit string (specification-side
companion of `parseHex?`, total on hex-digit inputs). -/
def hexValDigits (s : List Char) : Nat :=
  s.foldl (fun acc c => 16 * acc + (hexVal? c).getD 0) 0

/-- Model of `str.removeprefix("0x")`. -/
def stripHex0x (s : List Char) : List Char :=
  if s.take 2 = ['0', 'x'] then s.drop 2 else s

/-- A JSON scalar as it appears in a raw RPC log object. -/
inductive JVal
  | jnull
  | jint (n : Int)
  | jstr (s : List Char)
deriving DecidableEq, Repr

/-- A raw `eth_getLogs` log object, restricted to the fields the repository
reads.  An absent string field is the empty list (the source coerces absent
fields with `str(log.get(...) or "")`). -/
structure RawLog where
  topics : List (List Char)
  data : List Char
  address : List Char
  transactionHash : List Char
  blockNumber : JVal
  logIndex : JVal
  blockTimestamp : JVal
deriving DecidableEq, Repr

namespace Chain

/-- `chain.py`: `ORDER_FILLED_TOPIC0`. -/
def ORDER_FILLED_TOPIC0 : List Char :=
  "0xd0a08e8c493f9c94f29311604c9de1b4e8c8d4c06bd0c789af57f2d65bfec0f6".toList

/-- `chain.py`: `CTF_EXCHANGE`. -/
def CTF_EXCHANGE : List Char :=
  "0x4bfb41d5b3570defd03c39a9a4d8de6bd8b8982e".toList

/-- `chain.py`: `NEG_RISK_CTF_EXCHANGE`. -/
def NEG_RISK_CTF_EXCHANGE : List Char :=
  "0xc5d563a36ae78145c45a50134d48a1215220f80a".toList

/-- `chain.py`: `USDC_ASSET_ID = 0`. -/
def USDC_ASSET_ID : Nat := 0

/-- `chain.py`: `USDC_DECIMALS = 6`. -/
def USDC_DECIMALS : Nat := 6

/-- `chain.py`: `parse_hex_int` — lenient int coercion, `0` on failure. -/
def parse_hex_int : JVal → Int
  | .jint n => n
  | .jnull => 0
  | .jstr s =>
    if s.take 2 = ['0', 'x'] then ((parseHex? s).map Int.ofNat).getD 0
    else ((parseDec? s).map Int.ofNat).getD 0

/-- `chain.py`: `DecodedOrderFilledLog`. -/
structure DecodedOrderFilledLog where
  address : List Char
  tx_hash : List Char
  block_number : Int
  log_index : Int
  maker : List Char
  taker : List Char
  maker_asset_id : Nat
  taker_asset_id : Nat
  maker_amount_raw : Nat
  taker_amount_raw : Nat
  fee_raw : Nat
deriving DecidableEq, Repr

/-- `chain.py`: `topic_to_address` — lowercase, strip `0x`, demand a 64-hex
topic, keep the low 20 bytes.  `none` models the raised `ValueError`. -/
def topic_to_address (topic_hex : List Char) : Option (List Char) :=
  let clean := stripHex0x (topic_hex.map Char.toLower)
  if clean.length = 64 then some ('0' :: 'x' :: clean.drop 24) else none

/-- `chain.py`: `decode_order_filled_log`.  All exceptions inside the
source's `try` block (bad topic length, non-hex data) are `none`. -/
def decode_order_filled_log (log : RawLog) : Option DecodedOrderFilledLog :=
  if log.topics.length < 4 then none
  else if (log.topics.getD 0 []).map Char.toLower ≠ ORDER_FILLED_TOPIC0 then none
  else if log.data.take 2 ≠ ['0', 'x'] then none
  else if (log.data.drop 2).length < 64 * 5 then none
  else
    match parseHex? ((log.data.drop 2).take 64),
          parseHex? (((log.data.drop 2).drop 64).take 64),
          parseHex? (((log.data.drop 2).drop 128).take 64),
          parseHex? (((log.data.drop 2).drop 192).take 64),
          parseHex? (((log.data.drop 2).drop 256).take 64),
          topic_to_address (log.topics.getD 2 []),
          topic_to_address (log.topics.getD 3 []) with
    | some ma, some ta, some mam, some tam, some fee, some mk, some tk =>
      some { address := log.address.map Char.toLower
             tx_hash := log.transactionHash.map Char.toLower
             block_number := parse_hex_int log.blockNumber
             log_index := parse_hex_int log.logIndex
             maker := mk
             taker := tk
             maker_asset_id := ma
             taker_asset_id := ta
             maker_amount_raw := mam
             taker_amount_raw := tam
             fee_raw := fee }
    | _, _, _, _, _, _, _ => none

/-- `chain.py`: `scaled_amount` — fixed-point 10^-6 scaling, modelled in ℚ. -/
def scaled_amount (raw : Nat) : ℚ :=
  (raw : ℚ) / (10 : ℚ) ^ USDC_DECIMALS

end Chain

/-! ### Hex-parsing facts used by the decoder claims -/

theorem parseHexCore_of_hex (s : List Char) (acc : Nat)
    (h : ∀ c ∈ s, isHexChar c = true) :
    parseHexCore s acc = some (s.foldl (fun a c => 16 * a + (hexVal? c).getD 0) acc) := by
  induction s generalizing acc with
  | nil => rfl
  | cons c cs ih =>
    have hc : isHexChar c = true := h c (List.mem_cons_self ..)
    unfold isHexChar at hc
    cases hv : hexVal? c with
    | none => rw [hv] at hc; simp at hc
    | some v =>
      simp only [parseHexCore, hv, List.foldl_cons]
      rw [ih _ (fun x hx => h x (List.mem_cons_of_mem _ hx))]
      simp [hv]

theorem hexChar_ne_x {c : Char} (h : isHexChar c = true) : c ≠ 'x' ∧ c ≠ 'X' := by
  constructor <;> rintro rfl <;> revert h <;> decide

theorem parseHex?_of_hex (s : List Char) (hne : s ≠ [])
    (h : ∀ c ∈ s, isHexChar c = true) :
    parseHex? s = some (hexValDigits s) := by
  unfold parseHex? hexValDigits
  have hnx : ¬ (s.take 2 = ['0', 'x'] ∨ s.take 2 = ['0', 'X']) := by
    rintro (h2 | h2) <;>
    · match s, h2 with
      | c0 :: c1 :: rest, h2 =>
        simp only [List.take, List.cons.injEq] at h2
        have := hexChar_ne_x (h c1 (by simp))
        obtain ⟨-, h2, -⟩ := h2
        first
          | exact this.1 h2
          | exact this.2 h2
  rw [if_neg hnx, if_neg hne]
  exact parseHexCore_of_hex s 0 h

theorem hex_of_mem_take {s : List Char} {n : Nat}
    (h : ∀ c ∈ s, isHexChar c = true) : ∀ c ∈ s.take n, isHexChar c = true :=
  fun c hc => h c (List.mem_of_mem_take hc)

theorem hex_of_mem_drop {s : List Char} {n : Nat}
    (h : ∀ c ∈ s, isHexChar c = true) : ∀ c ∈ s.drop n, isHexChar c = true :=
  fun c hc => h c (List.mem_of_mem_drop hc)

theorem take64_ne_nil {s : List Char} {k : Nat} (hk : k + 64 ≤ s.length) :
    (s.drop k).take 64 ≠ [] := by
  have : ((s.drop k).take 64).length = 64 := by
    rw [List.length_take, List.length_drop]
    omega
  intro hnil
  rw [hnil] at this
  simp at this

/-! ### Claim C1 — well-formed logs decode to the expected record -/

/-- C1: for every raw log with at least 4 topics, matching `topic0`, a
`0x`-prefixed all-hex `data` payload of at least 320 hex characters, and
32-byte `topics[2]`/`topics[3]`, `decode_order_filled_log` returns a record
whose `maker`/`taker` are the lowercase hex of the low 20 bytes of
`topics[2]`/`topics[3]`, and whose five integer fields are the big-endian
values of the five consecutive 64-hex-character chunks of `data`, in order. -/
theorem c1_decode_wellformed (log : RawLog) (payload : List Char)
    (hdata : log.data = '0' :: 'x' :: payload)
    (hhex : ∀ c ∈ payload, isHexChar c = true)
    (hlen : 320 ≤ payload.length)
    (htop : 4 ≤ log.topics.length)
    (h0 : (log.topics.getD 0 []).map Char.toLower = Chain.ORDER_FILLED_TOPIC0)
    (h2 : (stripHex0x ((log.topics.getD 2 []).map Char.toLower)).length = 64)
    (h3 : (stripHex0x ((log.topics.getD 3 []).map Char.toLower)).length = 64) :
    ∃ d, Chain.decode_order_filled_log log = some d ∧
      d.maker = '0' :: 'x' :: (stripHex0x ((log.topics.getD 2 []).map Char.toLower)).drop 24 ∧
      d.taker = '0' :: 'x' :: (stripHex0x ((log.topics.getD 3 []).map Char.toLower)).drop 24 ∧
      d.maker_asset_id = hexValDigits (payload.take 64) ∧
      d.taker_asset_id = hexValDigits ((payload.drop 64).take 64) ∧
      d.maker_amount_raw = hexValDigits ((payload.drop 128).take 64) ∧
      d.taker_amount_raw = hexValDigits ((payload.drop 192).take 64) ∧
      d.fee_raw = hexValDigits ((payload.drop 256).take 64) := by
  have hdrop : log.data.drop 2 = payload := by rw [hdata]; rfl
  have htake : log.data.take 2 = ['0', 'x'] := by rw [hdata]; rfl
  have hchunk : ∀ k : Nat, k + 64 ≤ payload.length →
      parseHex? ((payload.drop k).take 64) =
        some (hexValDigits ((payload.drop k).take 64)) := by
    intro k hk
    exact parseHex?_of_hex _ (take64_ne_nil hk) (hex_of_mem_take (hex_of_mem_drop hhex))
  have hchunk0 : parseHex? (payload.take 64) = some (hexValDigits (payload.take 64)) := by
    have := hchunk 0 (by omega)
    simpa using this
  have haddr : ∀ t : List Char,
      (stripHex0x (t.map Char.toLower)).length = 64 →
      Chain.topic_to_address t =
        some ('0' :: 'x' :: (stripHex0x (t.map Char.toLower)).drop 24) := by
    intro t ht
    unfold Chain.topic_to_address
    rw [if_pos ht]
  unfold Chain.decode_order_filled_log
  rw [if_neg (by omega), if_neg (by rw [h0]; simp), if_neg (by rw [htake]; simp),
    if_neg (by rw [hdrop]; omega), hdrop, hchunk0,
    hchunk 64 (by omega), hchunk 128 (by omega), hchunk 192 (by omega),
    hchunk 256 (by omega), haddr _ h2, haddr _ h3]
  exact ⟨_, rfl, rfl, rfl, rfl, rfl, rfl, rfl, rfl⟩

/-- Concrete well-formed log used to witness C1. -/
def c1Payload : List Char :=
  (String.toList <| String.join <| List.replicate 4 "00000000000000000000000000000000"
    ) ++ "004d".toList ++
  (String.toList <| String.join <| List.replicate 2 "0000000000000000000000000000000000000000000000000000000000000000") ++
  "00000000000000000000000000000000000000000000000000000000004c4b40".toList ++
  "0000000000000000000000000000000000000000000000000000000000262500".toList

/-- Concrete well-formed log used to witness C1. -/
def c1Log : RawLog :=
  { topics :=
      [Chain.ORDER_FILLED_TOPIC0,
       "0x00000000000000000000000000000000000000000000000000000000000000aa".toList,
       "0x000000000000000000000000AbCd41d5b3570defd03c39a9a4d8de6bd8b8982e".toList,
       "0x0000000000000000000000004bfb41d5b3570defd03c39a9a4d8de6bd8b8982e".toList]
    data := '0' :: 'x' :: c1Payload
    address := Chain.CTF_EXCHANGE
    transactionHash := "0xDEAD01".toList
    blockNumber := .jstr "0x64".toList
    logIndex := .jstr "0x2".toList
    blockTimestamp := .jnull }

set_option maxRecDepth 100000 in
/-- Witness for C1 at the concrete log `c1Log`. -/
theorem c1_decode_wellformed_witness :
    ∃ d, Chain.decode_order_filled_log c1Log = some d ∧
      d.maker = '0' :: 'x' ::
        (stripHex0x ((c1Log.topics.getD 2 []).map Char.toLower)).drop 24 ∧
      d.taker = '0' :: 'x' ::
        (stripHex0x ((c1Log.topics.getD 3 []).map Char.toLower)).drop 24 ∧
      d.maker_asset_id = hexValDigits (c1Payload.take 64) ∧
      d.taker_asset_id = hexValDigits ((c1Payload.drop 64).take 64) ∧
      d.maker_amount_raw = hexValDigits ((c1Payload.drop 128).take 64) ∧
      d.taker_amount_raw = hexValDigits ((c1Payload.drop 192).take 64) ∧
      d.fee_raw = hexValDigits ((c1Payload.drop 256).take 64) :=
  c1_decode_wellformed c1Log c1Payload rfl (by decide) (by decide) (by decide)
    (by decide) (by decide) (by decide)

/-! ### Claim C4 — malformed logs yield no-match, never an error -/

/-- C4: any log with fewer than 4 topics, or a `0x`-prefixed `data` payload
shorter than 320 hex characters, or a `topic0` different from the
`OrderFilled` signature, decodes to `none`.  (The Lean embedding is a total
function, mirroring that the source catches every exception in this path and
never raises.) -/
theorem c4_decode_malformed (log : RawLog)
    (h : log.topics.length < 4 ∨
      (log.data.take 2 = ['0', 'x'] ∧ (log.data.drop 2).length < 320) ∨
      (log.topics.getD 0 []).map Char.toLower ≠ Chain.ORDER_FILLED_TOPIC0) :
    Chain.decode_order_filled_log log = none := by
  unfold Chain.decode_order_filled_log
  rcases h with h | ⟨hpre, hshort⟩ | h
  · rw [if_pos h]
  · by_cases h1 : log.topics.length < 4
    · rw [if_pos h1]
    · rw [if_neg h1]
      by_cases h2 : (log.topics.getD 0 []).map Char.toLower ≠ Chain.ORDER_FILLED_TOPIC0
      · rw [if_pos h2]
      · rw [if_neg h2, if_neg (by rw [hpre]; simp), if_pos (by omega)]
  · by_cases h1 : log.topics.length < 4
    · rw [if_pos h1]
    · rw [if_neg h1, if_pos h]

/-- Witness for C4: a log with a matching signature but a short payload. -/
theorem c4_decode_malformed_witness :
    Chain.decode_order_filled_log
      { topics := [Chain.ORDER_FILLED_TOPIC0, [], [], []]
        data := "0x00ff".toList
        address := []
        transactionHash := []
        blockNumber := .jnull
        logIndex := .jnull
        blockTimestamp := .jnull } = none :=
  c4_decode_malformed _ (Or.inr (Or.inl (by decide)))

/-! ## `scripts/export_market_trades_chain.py` — adaptive range scanner -/

namespace ExportScript

/-- `export_market_trades_chain.py`: `POLYGON_EXCHANGE`. -/
def POLYGON_EXCHANGE : List Char :=
  "0x4bfb41d5b3570defd03c39a9a4d8de6bd8b8982e".toList

/-- Substring test, the model of Python's `needle in haystack`. -/
def hasSub (needle : List Char) : List Char → Bool
  | [] => needle.isEmpty
  | c :: rest => needle.isPrefixOf (c :: rest) || hasSub needle rest

/-- `export_market_trades_chain.py`: keyword list of `_is_span_too_wide_error`. -/
def spanTooWideKeywords : List (List Char) :=
  ["block range is too large".toList, "too many results".toList,
   "query timeout".toList, "response size exceeded".toList,
   "limit exceeded".toList, "more than".toList]

/-- `export_market_trades_chain.py`: `_is_span_too_wide_error`. -/
def is_span_too_wide_error (message : List Char) : Bool :=
  spanTooWideKeywords.any (fun k => hasSub k (message.map Char.toLower))

/-- `export_market_trades_chain.py`: `RpcRange`. -/
structure RpcRange where
  start_block : Nat
  end_block : Nat
  logs_count : Nat
deriving DecidableEq, Repr

/-- One provider response to an `eth_getLogs` attempt: a page of logs
(`logs n`, only the count matters to the scan-control claims) or a raised
error carrying the stringified message (as produced by `RpcClient.call`). -/
inductive RpcResp
  | logs (count : Nat)
  | fail (message : List Char)
deriving DecidableEq, Repr

/-- The `while` loop of `_scan_market_trades`, with the provider abstracted
as an oracle indexed by attempt number and an explicit fuel bound (`none` =
fuel exhausted, `Except.error` = the scan re-raised an RPC failure).  Row
normalization inside the loop does not influence the produced ranges and is
modelled separately (`normalize_trade_from_log`). -/
def scanLoop (oracle : Nat → RpcResp) (min_span initial_span end_block : Nat) :
    Nat → Nat → Nat → Nat → List RpcRange → Option (Except Unit (List RpcRange))
  | 0, _, _, _, _ => none
  | fuel + 1, idx, current, span, ranges =>
    if current > end_block then some (.ok ranges)
    else
      match oracle idx with
      | .fail msg =>
        if is_span_too_wide_error msg = true ∧ min_span < span then
          scanLoop oracle min_span initial_span end_block fuel (idx + 1) current
            (max min_span (span / 2)) ranges
        else some (.error ())
      | .logs count =>
        scanLoop oracle min_span initial_span end_block fuel (idx + 1)
          (min (current + span - 1) end_block + 1)
          (if span < initial_span ∧ count < 2000 then min initial_span (span * 2) else span)
          (ranges ++ [⟨current, min (current + span - 1) end_block, count⟩])

/-- `export_market_trades_chain.py`: `_scan_market_trades`, range bookkeeping
only; `span` starts at `max(1, initial_span)` and `current` at
`start_block`. -/
def scan_market_trades (oracle : Nat → RpcResp)
    (start_block end_block initial_span min_span fuel : Nat) :
    Option (Except Unit (List RpcRange)) :=
  scanLoop oracle min_span initial_span end_block fuel 0 start_block (max 1 initial_span) []

/-- `coversFrom lo hi rs`: the ranges `rs` are contiguous and strictly
increasing, the first starting at `lo`, each next at the previous
`end_block + 1`, and together they tile `[lo, hi]` exactly. -/
def coversFrom : Nat → Nat → List RpcRange → Prop
  | lo, hi, [] => lo = hi + 1
  | lo, hi, r :: rs =>
    r.start_block = lo ∧ lo ≤ r.end_block ∧ r.end_block ≤ hi ∧
      coversFrom (r.end_block + 1) hi rs

instance coversFrom.dec : (lo hi : Nat) → (rs : List RpcRange) → Decidable (coversFrom lo hi rs)
  | lo, hi, [] => decidable_of_iff (lo = hi + 1) (by rw [coversFrom])
  | lo, hi, r :: rs =>
    have : Decidable (coversFrom (r.end_block + 1) hi rs) := coversFrom.dec _ _ _
    decidable_of_iff (r.start_block = lo ∧ lo ≤ r.end_block ∧ r.end_block ≤ hi ∧
      coversFrom (r.end_block + 1) hi rs) (by rw [coversFrom])

theorem coversFrom_mem {lo hi : Nat} {rs : List RpcRange} (h : coversFrom lo hi rs) :
    ∀ b, (lo ≤ b ∧ b ≤ hi) ↔ ∃ r ∈ rs, r.start_block ≤ b ∧ b ≤ r.end_block := by
  induction rs generalizing lo with
  | nil =>
    rw [coversFrom] at h
    intro b
    simp
    omega
  | cons r rs ih =>
    rw [coversFrom] at h
    obtain ⟨hstart, hle, hhi, hrest⟩ := h
    intro b
    have hihb := ih hrest b
    constructor
    · rintro ⟨h1, h2⟩
      by_cases hb : b ≤ r.end_block
      · exact ⟨r, by simp, by omega, hb⟩
      · obtain ⟨r', hr', hb1, hb2⟩ := hihb.mp (by omega)
        exact ⟨r', by simp [hr'], hb1, hb2⟩
    · rintro ⟨r', hr', hb1, hb2⟩
      rcases List.mem_cons.mp hr' with rfl | hr'
      · omega
      · have := hihb.mpr ⟨r', hr', hb1, hb2⟩
        omega

/-- Loop invariant for C2: a successfully completed scan extends the
accumulator with ranges tiling `[current, end_block]`. -/
theorem scanLoop_ok_covers (oracle : Nat → RpcResp) (min_span initial_span end_block : Nat)
    (hmin : 1 ≤ min_span) :
    ∀ fuel idx current span acc final,
      1 ≤ span → current ≤ end_block + 1 →
      scanLoop oracle min_span initial_span end_block fuel idx current span acc =
        some (.ok final) →
      ∃ suffix, final = acc ++ suffix ∧ coversFrom current end_block suffix := by
  intro fuel
  induction fuel with
  | zero => intro idx current span acc final _ _ h; simp [scanLoop] at h
  | succ fuel ih =>
    intro idx current span acc final hspan hcur h
    rw [scanLoop] at h
    by_cases hstop : current > end_block
    · rw [if_pos hstop] at h
      have hfin : acc = final := Except.ok.inj (Option.some.inj h)
      exact ⟨[], by simp [hfin], by rw [coversFrom]; omega⟩
    · rw [if_neg hstop] at h
      cases horacle : oracle idx with
      | fail msg =>
        rw [horacle] at h
        dsimp only at h
        by_cases hwide : is_span_too_wide_error msg = true ∧ min_span < span
        · rw [if_pos hwide] at h
          exact ih _ _ _ _ _ (by omega) hcur h
        · rw [if_neg hwide] at h
          exact absurd (Option.some.inj h) (by simp)
      | logs count =>
        rw [horacle] at h
        dsimp only at h
        obtain ⟨suffix, hfin, hcov⟩ :=
          ih (idx + 1) (min (current + span - 1) end_block + 1)
            (if span < initial_span ∧ count < 2000 then min initial_span (span * 2) else span)
            (acc ++ [⟨current, min (current + span - 1) end_block, count⟩]) final
            (by split <;> omega) (by omega) h
        refine ⟨⟨current, min (current + span - 1) end_block, count⟩ :: suffix, ?_, ?_⟩
        · simpa using hfin
        · rw [coversFrom]
          exact ⟨rfl, by dsimp only; omega, by dsimp only; omega, hcov⟩

/-! ### Claim C2 — completed scans tile `[start_block, end_block]` exactly -/

/-- C2: for `start_block ≤ end_block`, a positive configured minimum span,
and any sequence of provider responses under which the scan runs to
completion, the produced `RpcRange` list is contiguous and strictly
increasing (each range starts at the previous `end_block + 1`) and its union
is exactly `[start_block, end_block]`: no gaps, no overlaps.  (A scan that
re-raises an error produces no final range list; see C7.) -/
theorem c2_scan_ranges_cover (oracle : Nat → RpcResp)
    (start_block end_block initial_span min_span fuel : Nat) (ranges : List RpcRange)
    (hse : start_block ≤ end_block) (hmin : 1 ≤ min_span)
    (hok : scan_market_trades oracle start_block end_block initial_span min_span fuel =
      some (.ok ranges)) :
    coversFrom start_block end_block ranges ∧
      ∀ b, (start_block ≤ b ∧ b ≤ end_block) ↔
        ∃ r ∈ ranges, r.start_block ≤ b ∧ b ≤ r.end_block := by
  obtain ⟨suffix, hfin, hcov⟩ :=
    scanLoop_ok_covers oracle min_span initial_span end_block hmin fuel 0 start_block
      (max 1 initial_span) [] ranges (by omega) (by omega) hok
  rw [List.nil_append] at hfin
  subst hfin
  exact ⟨hcov, coversFrom_mem hcov⟩

/-- Provider script for the C2 witness: two "span too wide" rejections
interleaved with successful pages. -/
def c2Oracle : Nat → RpcResp
  | 0 => .fail "Block range is too large; narrow the span".toList
  | 1 => .logs 3
  | 2 => .fail "Query Timeout after 10s".toList
  | 3 => .logs 0
  | 4 => .logs 1
  | _ => .logs 2

/-- The range list `scan_market_trades` produces for `c2Oracle` on
`[10, 20]` with initial span 4 and minimum span 1. -/
def c2Ranges : List RpcRange :=
  [⟨10, 11, 3⟩, ⟨12, 13, 0⟩, ⟨14, 17, 1⟩, ⟨18, 20, 2⟩]

/-- Witness for C2 on a concrete forced-error run. -/
theorem c2_scan_ranges_cover_witness :
    coversFrom 10 20 c2Ranges ∧
      ∀ b, (10 ≤ b ∧ b ≤ 20) ↔ ∃ r ∈ c2Ranges, r.start_block ≤ b ∧ b ≤ r.end_block :=
  c2_scan_ranges_cover c2Oracle 10 20 4 1 30 c2Ranges (by decide) (by decide) (by rfl)

/-! ### Claim C7 — span-too-wide handling -/

/-- C7 counterexample: with the span already at the configured minimum, an
`eth_getLogs` failure matching the "span too wide" signature does NOT lead to
a halve-and-retry — the scan aborts (`Except.error`, the source re-raises),
refuting the claim that every such failure is retried and that only
non-matching failures abort. -/
theorem c7_counterexample :
    is_span_too_wide_error "too many results".toList = true ∧
      scan_market_trades (fun _ => .fail "too many results".toList) 10 20 1 1 5 =
        some (.error ()) := by
  constructor
  · decide
  · rfl

/-- C7 (amended): on an `eth_getLogs` failure, (1) if the message matches the
"span too wide" signature and the span is still above the configured minimum,
the scanner halves the span (floored at the minimum) and retries the same
range — `current` and the recorded ranges are unchanged; (2) a matching
failure at the minimum span aborts the scan; (3) a non-matching failure
aborts the scan. -/
theorem c7_span_too_wide_step (oracle : Nat → RpcResp)
    (min_span initial_span end_block fuel idx current span : Nat)
    (acc : List RpcRange) (msg : List Char)
    (hcur : current ≤ end_block)
    (hresp : oracle idx = .fail msg) :
    (is_span_too_wide_error msg = true → min_span < span →
      scanLoop oracle min_span initial_span end_block (fuel + 1) idx current span acc =
        scanLoop oracle min_span initial_span end_block fuel (idx + 1) current
          (max min_span (span / 2)) acc) ∧
    (is_span_too_wide_error msg = true → span ≤ min_span →
      scanLoop oracle min_span initial_span end_block (fuel + 1) idx current span acc =
        some (.error ())) ∧
    (is_span_too_wide_error msg = false →
      scanLoop oracle min_span initial_span end_block (fuel + 1) idx current span acc =
        some (.error ())) := by
  refine ⟨fun hw hsp => ?_, fun hw hsp => ?_, fun hw => ?_⟩ <;>
    (rw [scanLoop, if_neg (by omega), hresp]; dsimp only)
  · rw [if_pos ⟨hw, hsp⟩]
  · rw [if_neg (by omega)]
  · rw [if_neg (by simp [hw])]

/-- Witness for the amended C7 at a concrete state: span 8 above minimum 1
halves to 4, same `current`, same recorded ranges. -/
theorem c7_span_too_wide_step_witness :
    scanLoop (fun _ => .fail "too many results".toList) 1 100 20 6 0 10 8 [] =
      scanLoop (fun _ => .fail "too many results".toList) 1 100 20 5 1 10 4 [] :=
  (c7_span_too_wide_step (fun _ => .fail "too many results".toList) 1 100 20 5 0 10 8 []
    "too many results".toList (by decide) rfl).1 (by decide) (by decide)

/-! ## Block/timestamp bisection (`_find_first_block_ge_ts`, `_find_last_block_le_ts`) -/

/-- The `while` loop of `_find_first_block_ge_ts`; the RPC + memo cache pair
is abstracted as the pure lookup `ts`. -/
def find_first_ge_loop (ts : Nat → Int) (target : Int) (lo hi : Nat) : Nat :=
  if h : lo < hi then
    if ts ((lo + hi) / 2) < target then find_first_ge_loop ts target ((lo + hi) / 2 + 1) hi
    else find_first_ge_loop ts target lo ((lo + hi) / 2)
  else lo
termination_by hi - lo
decreasing_by all_goals omega

/-- `export_market_trades_chain.py`: `_find_first_block_ge_ts`, searching
`[1, latest_block]`. -/
def find_first_block_ge_ts (ts : Nat → Int) (target : Int) (latest_block : Nat) : Nat :=
  find_first_ge_loop ts target 1 latest_block

/-- The `while` loop of `_find_last_block_le_ts`. -/
def find_last_le_loop (ts : Nat → Int) (target : Int) (lo hi : Nat) : Nat :=
  if h : lo < hi then
    if ts ((lo + hi + 1) / 2) > target then
      find_last_le_loop ts target lo ((lo + hi + 1) / 2 - 1)
    else find_last_le_loop ts target ((lo + hi + 1) / 2) hi
  else lo
termination_by hi - lo
decreasing_by all_goals omega

/-- `export_market_trades_chain.py`: `_find_last_block_le_ts`, searching
`[1, latest_block]`. -/
def find_last_block_le_ts (ts : Nat → Int) (target : Int) (latest_block : Nat) : Nat :=
  find_last_le_loop ts target 1 latest_block

theorem find_first_ge_loop_spec (ts : Nat → Int) (target : Int) (latest : Nat)
    (mono : ∀ i j, 1 ≤ i → i ≤ j → j ≤ latest → ts i ≤ ts j) :
    ∀ n lo hi, hi - lo ≤ n → 1 ≤ lo → lo ≤ hi → hi ≤ latest → target ≤ ts hi →
      (∀ b, 1 ≤ b → b < lo → ts b < target) →
      lo ≤ find_first_ge_loop ts target lo hi ∧
        find_first_ge_loop ts target lo hi ≤ hi ∧
        target ≤ ts (find_first_ge_loop ts target lo hi) ∧
        ∀ b, 1 ≤ b → b < find_first_ge_loop ts target lo hi → ts b < target := by
  intro n
  induction n with
  | zero =>
    intro lo hi hn h1 hle hlat hts hbelow
    have : lo = hi := by omega
    subst this
    rw [find_first_ge_loop, dif_neg (by omega)]
    exact ⟨le_refl _, le_refl _, hts, hbelow⟩
  | succ n ih =>
    intro lo hi hn h1 hle hlat hts hbelow
    rw [find_first_ge_loop]
    by_cases hlt : lo < hi
    · rw [dif_pos hlt]
      have hmid1 : lo ≤ (lo + hi) / 2 := by omega
      have hmid2 : (lo + hi) / 2 < hi := by omega
      by_cases hmts : ts ((lo + hi) / 2) < target
      · rw [if_pos hmts]
        have := ih ((lo + hi) / 2 + 1) hi (by omega) (by omega) (by omega) hlat hts ?_
        · exact ⟨by omega, this.2.1, this.2.2.1, this.2.2.2⟩
        · intro b hb1 hb2
          by_cases hblo : b < lo
          · exact hbelow b hb1 hblo
          · calc ts b ≤ ts ((lo + hi) / 2) := mono b _ hb1 (by omega) (by omega)
              _ < target := hmts
      · rw [if_neg hmts]
        have := ih lo ((lo + hi) / 2) (by omega) h1 (by omega) (by omega)
          (by omega) hbelow
        exact ⟨this.1, by omega, this.2.2.1, this.2.2.2⟩
    · rw [dif_neg hlt]
      have : lo = hi := by omega
      subst this
      exact ⟨le_refl _, le_refl _, hts, hbelow⟩

theorem find_last_le_loop_spec (ts : Nat → Int) (target : Int) (latest : Nat)
    (mono : ∀ i j, 1 ≤ i → i ≤ j → j ≤ latest → ts i ≤ ts j) :
    ∀ n lo hi, hi - lo ≤ n → 1 ≤ lo → lo ≤ hi → hi ≤ latest → ts lo ≤ target →
      (∀ b, hi < b → b ≤ latest → target < ts b) →
      lo ≤ find_last_le_loop ts target lo hi ∧
        find_last_le_loop ts target lo hi ≤ hi ∧
        ts (find_last_le_loop ts target lo hi) ≤ target ∧
        ∀ b, find_last_le_loop ts target lo hi < b → b ≤ latest → target < ts b := by
  intro n
  induction n with
  | zero =>
    intro lo hi hn h1 hle hlat hts habove
    have : lo = hi := by omega
    subst this
    rw [find_last_le_loop, dif_neg (by omega)]
    exact ⟨le_refl _, le_refl _, hts, habove⟩
  | succ n ih =>
    intro lo hi hn h1 hle hlat hts habove
    rw [find_last_le_loop]
    by_cases hlt : lo < hi
    · rw [dif_pos hlt]
      have hmid1 : lo < (lo + hi + 1) / 2 := by omega
      have hmid2 : (lo + hi + 1) / 2 ≤ hi := by omega
      by_cases hmts : ts ((lo + hi + 1) / 2) > target
      · rw [if_pos hmts]
        have := ih lo ((lo + hi + 1) / 2 - 1) (by omega) h1 (by omega) (by omega) hts ?_
        · exact ⟨this.1, by omega, this.2.2.1, this.2.2.2⟩
        · intro b hb1 hb2
          by_cases hbhi : hi < b
          · exact habove b hbhi hb2
          · calc target < ts ((lo + hi + 1) / 2) := hmts
              _ ≤ ts b := mono _ b (by omega) (by omega) (by omega)
      · rw [if_neg hmts]
        have := ih ((lo + hi + 1) / 2) hi (by omega) (by omega) (by omega) hlat
          (by omega) habove
        exact ⟨by omega, this.2.1, this.2.2.1, this.2.2.2⟩
    · rw [dif_neg hlt]
      have : lo = hi := by omega
      subst this
      exact ⟨le_refl _, le_refl _, hts, habove⟩

/-! ### Claim C3 — the two bisection searches return the boundary blocks -/

/-- C3: if block timestamps are non-decreasing over `[1, latest]` and blocks
meeting each bound exist, `_find_first_block_ge_ts` returns the smallest
block with `ts(b) ≥ target` (every earlier block is strictly below the
target, so in particular block `b-1` when it exists), and
`_find_last_block_le_ts` returns the largest block with `ts(b) ≤ target`
(every later block in range is strictly above the target). -/
theorem c3_bisection_bounds (ts : Nat → Int) (target : Int) (latest : Nat)
    (hlatest : 1 ≤ latest)
    (mono : ∀ i j, 1 ≤ i → i ≤ j → j ≤ latest → ts i ≤ ts j)
    (hex_ge : ∃ b, 1 ≤ b ∧ b ≤ latest ∧ target ≤ ts b)
    (hex_le : ∃ b, 1 ≤ b ∧ b ≤ latest ∧ ts b ≤ target) :
    (1 ≤ find_first_block_ge_ts ts target latest ∧
      find_first_block_ge_ts ts target latest ≤ latest ∧
      target ≤ ts (find_first_block_ge_ts ts target latest) ∧
      ∀ b, 1 ≤ b → b < find_first_block_ge_ts ts target latest → ts b < target) ∧
    (1 ≤ find_last_block_le_ts ts target latest ∧
      find_last_block_le_ts ts target latest ≤ latest ∧
      ts (find_last_block_le_ts ts target latest) ≤ target ∧
      ∀ b, find_last_block_le_ts ts target latest < b → b ≤ latest → target < ts b) := by
  constructor
  · obtain ⟨b, hb1, hb2, hb3⟩ := hex_ge
    have hts : target ≤ ts latest := le_trans hb3 (mono b latest hb1 hb2 (le_refl _))
    exact find_first_ge_loop_spec ts target latest mono latest 1 latest (by omega)
      (by omega) hlatest (le_refl _) hts (by omega)
  · obtain ⟨b, hb1, hb2, hb3⟩ := hex_le
    have hts : ts 1 ≤ target := le_trans (mono 1 b (by omega) hb1 hb2) hb3
    exact find_last_le_loop_spec ts target latest mono latest 1 latest (by omega)
      (by omega) hlatest (le_refl _) hts (by omega)

/-- Witness for C3 on the synthetic monotone timestamp array
`ts(b) = 10·b` with target 35 over `[1, 10]`. -/
theorem c3_bisection_bounds_witness :
    (1 ≤ find_first_block_ge_ts (fun b => (10 : Int) * b) 35 10 ∧
      find_first_block_ge_ts (fun b => (10 : Int) * b) 35 10 ≤ 10 ∧
      (35 : Int) ≤ (fun b => (10 : Int) * b) (find_first_block_ge_ts (fun b => (10 : Int) * b) 35 10) ∧
      ∀ b, 1 ≤ b → b < find_first_block_ge_ts (fun b => (10 : Int) * b) 35 10 →
        (fun b => (10 : Int) * b) b < 35) ∧
    (1 ≤ find_last_block_le_ts (fun b => (10 : Int) * b) 35 10 ∧
      find_last_block_le_ts (fun b => (10 : Int) * b) 35 10 ≤ 10 ∧
      (fun b => (10 : Int) * b) (find_last_block_le_ts (fun b => (10 : Int) * b) 35 10) ≤ 35 ∧
      ∀ b, find_last_block_le_ts (fun b => (10 : Int) * b) 35 10 < b → b ≤ 10 →
        (35 : Int) < (fun b => (10 : Int) * b) b) :=
  c3_bisection_bounds (fun b => (10 : Int) * b) 35 10 (by omega)
    (by intro i j h1 h2 h3; dsimp only; omega)
    ⟨4, by norm_num⟩ ⟨3, by norm_num⟩

end ExportScript

/-- Trade side relative to the outcome token. -/
inductive Side
  | BUY
  | SELL
deriving DecidableEq, Repr

namespace ExportScript

/-- `export_market_trades_chain.py`: `USDC_ASSET_ID = 0`. -/
def USDC_ASSET_ID : Nat := 0

/-- `export_market_trades_chain.py`: `USDC_DECIMALS = 6`. -/
def USDC_DECIMALS : Nat := 6

/-- `export_market_trades_chain.py`: `_topic_to_address` (script-local copy,
same logic as `chain.topic_to_address`; `none` models the raised
`RuntimeError`). -/
def topic_to_address (topic_hex : List Char) : Option (List Char) :=
  let clean := stripHex0x (topic_hex.map Char.toLower)
  if clean.length = 64 then some ('0' :: 'x' :: clean.drop 24) else none

/-- Model of Python `str(...)` on the JSON scalars stored in a log field. -/
def jvalText : JVal → List Char
  | .jnull => "None".toList
  | .jint n => if n < 0 then '-' :: Nat.toDigits 10 n.natAbs else Nat.toDigits 10 n.natAbs
  | .jstr s => s

/-- `str(log.get("blockNumber", "0x0"))`; `jnull` models an absent field. -/
def blockNumberText (log : RawLog) : List Char :=
  match log.blockNumber with
  | .jnull => "0x0".toList
  | v => jvalText v

/-- `str(log.get("logIndex", "0x0"))`; `jnull` models an absent field. -/
def logIndexText (log : RawLog) : List Char :=
  match log.logIndex with
  | .jnull => "0x0".toList
  | v => jvalText v

/-- `export_market_trades_chain.py`: `_extract_block_timestamp`; a string
field is parsed with an uncaught `int(ts, 16)` (`Except.error`), an int is
returned as-is, anything else is `0`. -/
def extract_block_timestamp (log : RawLog) : Except Unit Int :=
  match log.blockTimestamp with
  | .jstr s =>
    match parseHex? s with
    | some n => .ok (n : Int)
    | none => .error ()
  | .jint n => .ok n
  | .jnull => .ok 0

/-- Lookup in the `token_to_outcome` dict (keys are `int(token_id)`). -/
def lookupOutcome (token_to_outcome : List (Nat × List Char)) (k : Nat) :
    Option (List Char) :=
  (token_to_outcome.find? (fun p => decide (p.1 = k))).map Prod.snd

/-- One row of the strict backfill CSV (`_normalize_trade_from_log` result).
The derived string fields `log_uid` (= `tx_hash:log_index`), `trade_utc` and
`rpc_url` are carried by `(tx_hash, log_index)` and elided; `Decimal`
amounts are exact rationals. -/
structure BatchRow where
  market_slug : List Char
  condition_id : List Char
  tx_hash : List Char
  log_index : Nat
  block_number : Nat
  trade_timestamp : Int
  proxy_wallet : List Char
  side : Side
  outcome : List Char
  asset : Nat
  size : ℚ
  price : ℚ
  notional : ℚ
  fee : ℚ
  maker_asset_id : Nat
  taker_asset_id : Nat
  maker_amount_raw : Nat
  taker_amount_raw : Nat
  fee_raw : Nat
deriving DecidableEq, Repr

/-- Tail of `_normalize_trade_from_log` (source lines 396-433): the code run
after classification — block number / log index parses (uncaught on
failure), block timestamp resolution (via the memoized RPC lookup `btime`
when the log carries none) and row construction.  `price` is `0` when the
size leg is `0`, else `notional / size`. -/
def normalize_classified (market_slug condition_id : List Char)
    (token_to_outcome : List (Nat × List Char)) (btime : Nat → Int) (log : RawLog)
    (maker : List Char) (side : Side) (token_id size_raw notional_raw : Nat)
    (ma ta mam tam fee : Nat) : Except Unit (Option BatchRow) :=
  match parseHex? (blockNumberText log) with
  | none => .error ()
  | some block_number =>
    match extract_block_timestamp log with
    | .error _ => .error ()
    | .ok ts0 =>
      match parseHex? (logIndexText log) with
      | none => .error ()
      | some log_index =>
        .ok (some
          { market_slug := market_slug
            condition_id := condition_id
            tx_hash := log.transactionHash.map Char.toLower
            log_index := log_index
            block_number := block_number
            trade_timestamp := if ts0 = 0 then btime block_number else ts0
            proxy_wallet := maker
            side := side
            outcome := (lookupOutcome token_to_outcome token_id).getD []
            asset := token_id
            size := (size_raw : ℚ) / (10 : ℚ) ^ USDC_DECIMALS
            price := if ((size_raw : ℚ) / (10 : ℚ) ^ USDC_DECIMALS) = 0 then 0
              else ((notional_raw : ℚ) / (10 : ℚ) ^ USDC_DECIMALS) /
                ((size_raw : ℚ) / (10 : ℚ) ^ USDC_DECIMALS)
            notional := (notional_raw : ℚ) / (10 : ℚ) ^ USDC_DECIMALS
            fee := (fee : ℚ) / (10 : ℚ) ^ USDC_DECIMALS
            maker_asset_id := ma
            taker_asset_id := ta
            maker_amount_raw := mam
            taker_amount_raw := tam
            fee_raw := fee })

/-- `export_market_trades_chain.py`: `_normalize_trade_from_log`.  Guards
(`.ok none` = the source's `return None`), the five uncaught word parses
(`.error` on non-hex), the two-sided classification against
`token_to_outcome` with the strict `taker == POLYGON_EXCHANGE` filter, then
`normalize_classified`. -/
def normalize_trade_from_log (log : RawLog) (market_slug condition_id : List Char)
    (token_to_outcome : List (Nat × List Char)) (btime : Nat → Int) :
    Except Unit (Option BatchRow) :=
  if log.topics.length < 4 then .ok none
  else
    match topic_to_address (log.topics.getD 2 []), topic_to_address (log.topics.getD 3 []) with
    | some maker, some taker =>
      if taker ≠ POLYGON_EXCHANGE then .ok none
      else if log.data.take 2 ≠ ['0', 'x'] then .ok none
      else if (log.data.drop 2).length < 64 * 5 then .ok none
      else
        match parseHex? ((log.data.drop 2).take 64),
              parseHex? (((log.data.drop 2).drop 64).take 64),
              parseHex? (((log.data.drop 2).drop 128).take 64),
              parseHex? (((log.data.drop 2).drop 192).take 64),
              parseHex? (((log.data.drop 2).drop 256).take 64) with
        | some ma, some ta, some mam, some tam, some fee =>
          if (lookupOutcome token_to_outcome ma).isSome = true ∧ ta = USDC_ASSET_ID then
            normalize_classified market_slug condition_id token_to_outcome btime log
              maker .SELL ma mam tam ma ta mam tam fee
          else if (lookupOutcome token_to_outcome ta).isSome = true ∧ ma = USDC_ASSET_ID then
            normalize_classified market_slug condition_id token_to_outcome btime log
              maker .BUY ta tam mam ma ta mam tam fee
          else .ok none
        | _, _, _, _, _ => .error ()
    | _, _ => .ok none

theorem normalize_classified_inv {market_slug condition_id : List Char}
    {token_to_outcome : List (Nat × List Char)} {btime : Nat → Int} {log : RawLog}
    {maker : List Char} {side : Side} {token_id size_raw notional_raw : Nat}
    {ma ta mam tam fee : Nat} {row : BatchRow}
    (h : normalize_classified market_slug condition_id token_to_outcome btime log
      maker side token_id size_raw notional_raw ma ta mam tam fee = .ok (some row)) :
    row.side = side ∧ row.asset = token_id ∧
      row.size = (size_raw : ℚ) / (10 : ℚ) ^ USDC_DECIMALS ∧
      row.notional = (notional_raw : ℚ) / (10 : ℚ) ^ USDC_DECIMALS ∧
      row.price = (if ((size_raw : ℚ) / (10 : ℚ) ^ USDC_DECIMALS) = 0 then 0
        else ((notional_raw : ℚ) / (10 : ℚ) ^ USDC_DECIMALS) /
          ((size_raw : ℚ) / (10 : ℚ) ^ USDC_DECIMALS)) ∧
      row.maker_asset_id = ma ∧ row.taker_asset_id = ta ∧
      row.maker_amount_raw = mam ∧ row.taker_amount_raw = tam ∧ row.fee_raw = fee := by
  unfold normalize_classified at h
  repeat' split at h
  all_goals first
    | (obtain rfl : _ = row := Option.some.inj (Except.ok.inj h)
       refine ⟨rfl, rfl, rfl, rfl, ?_, rfl, rfl, rfl, rfl, rfl⟩
       simp_all)
    | exact absurd h (by simp)

theorem normalize_from_log_inv {log : RawLog} {market_slug condition_id : List Char}
    {token_to_outcome : List (Nat × List Char)} {btime : Nat → Int} {row : BatchRow}
    (h : normalize_trade_from_log log market_slug condition_id token_to_outcome btime =
      .ok (some row)) :
    ∃ ma ta mam tam fee maker,
      ((lookupOutcome token_to_outcome ma).isSome = true ∧ ta = USDC_ASSET_ID ∧
        normalize_classified market_slug condition_id token_to_outcome btime log
          maker .SELL ma mam tam ma ta mam tam fee = .ok (some row)) ∨
      (¬((lookupOutcome token_to_outcome ma).isSome = true ∧ ta = USDC_ASSET_ID) ∧
        (lookupOutcome token_to_outcome ta).isSome = true ∧ ma = USDC_ASSET_ID ∧
        normalize_classified market_slug condition_id token_to_outcome btime log
          maker .BUY ta tam mam ma ta mam tam fee = .ok (some row)) := by
  unfold normalize_trade_from_log at h
  repeat' split at h
  all_goals first
    | (rename_i hnosell hbuy
       exact ⟨_, _, _, _, _, _, Or.inr ⟨hnosell, hbuy.1, hbuy.2, h⟩⟩)
    | (rename_i hsell
       exact ⟨_, _, _, _, _, _, Or.inl ⟨hsell.1, hsell.2, h⟩⟩)
    | exact absurd h (by simp)

end ExportScript

/-! ## `trade_streamer.py` — real-time trade normalizer -/

namespace Streamer

/-- The fields of `market_tracker.ActiveMarket` that `_normalize_trade`
reads. -/
structure StreamMarket where
  slug : List Char
  window_start_ts : Int
  condition_id : List Char
  event_id : List Char
deriving DecidableEq, Repr

/-- One normalized real-time trade row.  `price`/`notional` are `none` when
the source leaves them as the empty string; the derived `dedupe_key` and
UTC strings are float/string formatting over fields already present and are
elided. -/
structure StreamRow where
  market_slug : List Char
  window_start_ts : Int
  condition_id : List Char
  event_id : List Char
  trade_timestamp : Int
  price : Option ℚ
  size : ℚ
  notional : Option ℚ
  side : Side
  outcome : List Char
  asset : Nat
  proxy_wallet : List Char
  transaction_hash : List Char
  timestamp_ms : Int
  server_received_ms : Int
deriving DecidableEq, Repr

/-- Tail of `TradeStreamService._normalize_trade` after the branch choosing
the tracked leg: reject non-positive size, populate `price`/`notional` only
when the other leg is the quote asset (id 0), build the row.
`timestamp_ms = block_timestamp*1000 + log_index`. -/
def normalize_trade_core (market : StreamMarket) (outcome : List Char) (side : Side)
    (token_asset_id size_raw quote_asset_id quote_raw : Nat)
    (decoded : Chain.DecodedOrderFilledLog) (block_timestamp receive_ms : Int) :
    Option StreamRow :=
  if Chain.scaled_amount size_raw ≤ 0 then none
  else
    some { market_slug := market.slug
           window_start_ts := market.window_start_ts
           condition_id := market.condition_id
           event_id := market.event_id
           trade_timestamp := block_timestamp
           price := if quote_asset_id = Chain.USDC_ASSET_ID
             then some (Chain.scaled_amount quote_raw / Chain.scaled_amount size_raw)
             else none
           size := Chain.scaled_amount size_raw
           notional := if quote_asset_id = Chain.USDC_ASSET_ID
             then some (Chain.scaled_amount quote_raw) else none
           side := side
           outcome := outcome
           asset := token_asset_id
           proxy_wallet := decoded.maker
           transaction_hash := decoded.tx_hash
           timestamp_ms := block_timestamp * 1000 + decoded.log_index
           server_received_ms := receive_ms }

/-- `trade_streamer.py`: `TradeStreamService._normalize_trade`.  The
tracker's `resolve_token_market(str(asset_id))` is the pure lookup
`resolve`.  If the maker's asset resolves it is a SELL of that token
(whatever the taker's asset); otherwise if the taker's asset resolves it is
a BUY; otherwise no trade. -/
def normalize_trade (resolve : Nat → Option (StreamMarket × List Char))
    (decoded : Chain.DecodedOrderFilledLog) (block_timestamp receive_ms : Int) :
    Option StreamRow :=
  match resolve decoded.maker_asset_id, resolve decoded.taker_asset_id with
  | none, none => none
  | some (market, outcome), _ =>
    normalize_trade_core market outcome .SELL decoded.maker_asset_id
      decoded.maker_amount_raw decoded.taker_asset_id decoded.taker_amount_raw
      decoded block_timestamp receive_ms
  | none, some (market, outcome) =>
    normalize_trade_core market outcome .BUY decoded.taker_asset_id
      decoded.taker_amount_raw decoded.maker_asset_id decoded.maker_amount_raw
      decoded block_timestamp receive_ms

theorem normalize_trade_core_inv {market : StreamMarket} {outcome : List Char}
    {side : Side} {token_asset_id size_raw quote_asset_id quote_raw : Nat}
    {decoded : Chain.DecodedOrderFilledLog} {block_timestamp receive_ms : Int}
    {row : StreamRow}
    (h : normalize_trade_core market outcome side token_asset_id size_raw
      quote_asset_id quote_raw decoded block_timestamp receive_ms = some row) :
    ¬ Chain.scaled_amount size_raw ≤ 0 ∧
      row.size = Chain.scaled_amount size_raw ∧ row.side = side ∧
      row.asset = token_asset_id ∧ row.outcome = outcome ∧
      row.price = (if quote_asset_id = Chain.USDC_ASSET_ID
        then some (Chain.scaled_amount quote_raw / Chain.scaled_amount size_raw)
        else none) ∧
      row.notional = (if quote_asset_id = Chain.USDC_ASSET_ID
        then some (Chain.scaled_amount quote_raw) else none) := by
  unfold normalize_trade_core at h
  split at h
  · exact absurd h (by simp)
  · obtain rfl : _ = row := Option.some.inj h
    refine ⟨by assumption, rfl, rfl, rfl, rfl, rfl, rfl⟩

/-! ### Claim C5 — emitted sizes and the price/size/notional relation -/

/-- A well-formed batch-path log whose tracked maker leg (token 77 against
quote asset 0) carries `maker_amount_raw = 0` and
`taker_amount_raw = 2_500_000`, with `taker` the exchange contract. -/
def c5Log : RawLog :=
  { topics :=
      [Chain.ORDER_FILLED_TOPIC0,
       "0x00000000000000000000000000000000000000000000000000000000000000aa".toList,
       "0x000000000000000000000000abcd41d5b3570defd03c39a9a4d8de6bd8b8982e".toList,
       "0x0000000000000000000000004bfb41d5b3570defd03c39a9a4d8de6bd8b8982e".toList]
    data := ('0' :: 'x' ::
      ("000000000000000000000000000000000000000000000000000000000000004d".toList ++
       "0000000000000000000000000000000000000000000000000000000000000000".toList ++
       "0000000000000000000000000000000000000000000000000000000000000000".toList ++
       "00000000000000000000000000000000000000000000000000000000002625a0".toList ++
       "0000000000000000000000000000000000000000000000000000000000000000".toList))
    address := ExportScript.POLYGON_EXCHANGE
    transactionHash := "0xfeed01".toList
    blockNumber := .jstr "0x64".toList
    logIndex := .jstr "0x1".toList
    blockTimestamp := .jint 1700000000 }

/-- The token map tracking only token 77 ("Up"). -/
def c5Tokens : List (Nat × List Char) := [(77, "Up".toList)]

set_option maxRecDepth 100000 in
/-- C5 counterexample: the batch normalizer emits a trade with `size = 0`.
`c5Log` is well-formed, `taker` is the exchange, the maker leg is tracked
token 77 against quote asset 0, but `maker_amount_raw = 0`; the source has
no positive-size guard on this path and emits the row (`price = 0`,
`notional = 2.5`), refuting "a decoded log whose size leg is <= 0 is never
emitted as a trade" for the batch path. -/
theorem c5_counterexample :
    ∃ row, ExportScript.normalize_trade_from_log c5Log "m-slug".toList "c-id".toList
        c5Tokens (fun _ => 0) = .ok (some row) ∧
      row.size = 0 ∧ row.notional ≠ 0 := by
  refine ⟨_, rfl, ?_, ?_⟩
  · show ((0 : Nat) : ℚ) / (10 : ℚ) ^ ExportScript.USDC_DECIMALS = 0
    norm_num
  · show ((2500000 : Nat) : ℚ) / (10 : ℚ) ^ ExportScript.USDC_DECIMALS ≠ 0
    norm_num [ExportScript.USDC_DECIMALS]

/-- C5 (amended): every trade emitted by the real-time normalizer has
strictly positive size, and its price equals notional divided by size
whenever both are populated (exactly, in the rational model of the source's
decimal arithmetic).  The batch normalizer guarantees only non-negative
size: `price = notional / size` whenever `size ≠ 0`, but a zero-size leg is
still emitted as a trade row with `price = 0`. -/
theorem c5_size_price_invariant :
    (∀ (resolve : Nat → Option (StreamMarket × List Char))
      (decoded : Chain.DecodedOrderFilledLog) (bts rms : Int) (row : StreamRow),
      normalize_trade resolve decoded bts rms = some row →
      0 < row.size ∧
        ∀ p n, row.price = some p → row.notional = some n → p = n / row.size) ∧
    (∀ (log : RawLog) (slug cond : List Char) (tokens : List (Nat × List Char))
      (btime : Nat → Int) (row : ExportScript.BatchRow),
      ExportScript.normalize_trade_from_log log slug cond tokens btime = .ok (some row) →
      0 ≤ row.size ∧ (row.size ≠ 0 → row.price = row.notional / row.size) ∧
        (row.size = 0 → row.price = 0)) := by
  constructor
  · intro resolve decoded bts rms row h
    unfold normalize_trade at h
    have core : ∀ {market outcome side token_asset_id size_raw quote_asset_id quote_raw},
        normalize_trade_core market outcome side token_asset_id size_raw
          quote_asset_id quote_raw decoded bts rms = some row →
        0 < row.size ∧
          ∀ p n, row.price = some p → row.notional = some n → p = n / row.size := by
      intro market outcome side token_asset_id size_raw quote_asset_id quote_raw hc
      obtain ⟨hpos, hsize, -, -, -, hprice, hnot⟩ := normalize_trade_core_inv hc
      have h0 : 0 ≤ Chain.scaled_amount size_raw := by
        unfold Chain.scaled_amount
        positivity
      refine ⟨by rw [hsize]; exact lt_of_le_of_ne h0 (fun hab => hpos (le_of_eq hab.symm)), ?_⟩
      intro p n hp hn
      rw [hprice] at hp
      rw [hnot] at hn
      split at hp <;> rename_i hq
      · rw [if_pos hq] at hn
        obtain rfl : _ = p := Option.some.inj hp
        obtain rfl : _ = n := Option.some.inj hn
        rw [hsize]
      · exact absurd hp (by simp)
    split at h
    · exact absurd h (by simp)
    · exact core h
    · exact core h
  · intro log slug cond tokens btime row h
    obtain ⟨ma, ta, mam, tam, fee, maker, hcase⟩ := ExportScript.normalize_from_log_inv h
    have main : ∀ {side token_id size_raw notional_raw},
        ExportScript.normalize_classified slug cond tokens btime log maker side token_id
          size_raw notional_raw ma ta mam tam fee = .ok (some row) →
        0 ≤ row.size ∧ (row.size ≠ 0 → row.price = row.notional / row.size) ∧
          (row.size = 0 → row.price = 0) := by
      intro side token_id size_raw notional_raw hc
      obtain ⟨-, -, hsize, hnot, hprice, -⟩ := ExportScript.normalize_classified_inv hc
      refine ⟨by rw [hsize]; positivity, ?_, ?_⟩
      · intro hne
        rw [hsize] at hne
        rw [hprice, if_neg hne, hsize, hnot]
      · intro heq
        rw [hsize] at heq
        rw [hprice, if_pos heq]
    rcases hcase with ⟨-, -, hc⟩ | ⟨-, -, -, hc⟩
    · exact main hc
    · exact main hc

/-- Concrete tracked-maker decode used to witness the amended C5 and to
refute C6: maker leg is tracked token 77, taker leg is asset id 999 (not
the quote asset). -/
def c6Decoded : Chain.DecodedOrderFilledLog :=
  { address := Chain.CTF_EXCHANGE
    tx_hash := "0xbeef02".toList
    block_number := 100
    log_index := 7
    maker := "0xabcd41d5b3570defd03c39a9a4d8de6bd8b8982e".toList
    taker := "0x4bfb41d5b3570defd03c39a9a4d8de6bd8b8982e".toList
    maker_asset_id := 77
    taker_asset_id := 999
    maker_amount_raw := 5000000
    taker_amount_raw := 2500000
    fee_raw := 0 }

/-- Concrete resolver tracking only token 77. -/
def c6Resolve : Nat → Option (StreamMarket × List Char) := fun a =>
  if a = 77 then
    some (⟨"btc-updown-5m-1771211700".toList, 1771211700, "0xc0nd".toList, "ev1".toList⟩,
      "Up".toList)
  else none

/-- Witness for the amended C5: a real-time emission (size 5, no populated
price) and a batch emission (the zero-size row of the counterexample),
both satisfying the amended invariant. -/
theorem c5_size_price_invariant_witness :
    (∀ row : StreamRow, normalize_trade c6Resolve c6Decoded 1700000000 5 = some row →
      0 < row.size ∧
        ∀ p n, row.price = some p → row.notional = some n → p = n / row.size) ∧
    (∀ row : ExportScript.BatchRow,
      ExportScript.normalize_trade_from_log c5Log "m-slug".toList "c-id".toList
          c5Tokens (fun _ => 0) = .ok (some row) →
      0 ≤ row.size ∧ (row.size ≠ 0 → row.price = row.notional / row.size) ∧
        (row.size = 0 → row.price = 0)) :=
  ⟨fun row => c5_size_price_invariant.1 c6Resolve c6Decoded 1700000000 5 row,
   fun row => c5_size_price_invariant.2 c5Log "m-slug".toList "c-id".toList
     c5Tokens (fun _ => 0) row⟩

/-! ### Claim C6 — trade classification against the asset-id pair -/

set_option maxRecDepth 10000 in
/-- C6 counterexample: the real-time normalizer emits a trade for a decoded
log whose maker asset is a tracked token while the taker asset is 999 —
neither leg is the quote asset (id 0).  This refutes "for every other
asset-id combination the log is rejected and no trade is emitted": the
stream path never checks the quote leg when classifying. -/
theorem c6_counterexample :
    (∃ row, normalize_trade c6Resolve c6Decoded 1700000000 5 = some row ∧
      row.side = Side.SELL ∧ row.price = none ∧ row.notional = none) ∧
    c6Decoded.maker_asset_id ≠ Chain.USDC_ASSET_ID ∧
    c6Decoded.taker_asset_id ≠ Chain.USDC_ASSET_ID ∧
    c6Resolve c6Decoded.taker_asset_id = none := by
  refine ⟨?_, by decide, by decide, by decide⟩
  have hres : c6Resolve c6Decoded.maker_asset_id =
      some (⟨"btc-updown-5m-1771211700".toList, 1771211700, "0xc0nd".toList,
        "ev1".toList⟩, "Up".toList) := by decide
  unfold normalize_trade
  simp only [hres]
  unfold normalize_trade_core
  rw [if_neg (show ¬ Chain.scaled_amount c6Decoded.maker_amount_raw ≤ 0 by
    simp only [c6Decoded]
    norm_num [Chain.scaled_amount, Chain.USDC_DECIMALS])]
  refine ⟨_, rfl, rfl, ?_, ?_⟩ <;>
    simp [c6Decoded, Chain.USDC_ASSET_ID]

/-- C6 (amended): the batch normalizer classifies exactly as the claim
states — a trade is emitted only when the maker leg is a tracked token and
the taker leg the quote asset (SELL, size = maker amount, notional = taker
amount), or the taker leg is tracked and the maker leg the quote asset
(BUY, size = taker amount, notional = maker amount).  The real-time
normalizer instead classifies on the tracked leg alone: SELL whenever the
maker asset resolves, else BUY whenever the taker asset resolves, with no
requirement on the other leg; `price`/`notional` are populated only when
the other leg is the quote asset. -/
theorem c6_classification :
    (∀ (log : RawLog) (slug cond : List Char) (tokens : List (Nat × List Char))
      (btime : Nat → Int) (row : ExportScript.BatchRow),
      ExportScript.normalize_trade_from_log log slug cond tokens btime = .ok (some row) →
      ((ExportScript.lookupOutcome tokens row.maker_asset_id).isSome = true ∧
        row.taker_asset_id = ExportScript.USDC_ASSET_ID ∧ row.side = Side.SELL ∧
        row.asset = row.maker_asset_id ∧
        row.size = (row.maker_amount_raw : ℚ) / (10 : ℚ) ^ ExportScript.USDC_DECIMALS ∧
        row.notional = (row.taker_amount_raw : ℚ) / (10 : ℚ) ^ ExportScript.USDC_DECIMALS) ∨
      ((ExportScript.lookupOutcome tokens row.taker_asset_id).isSome = true ∧
        row.maker_asset_id = ExportScript.USDC_ASSET_ID ∧ row.side = Side.BUY ∧
        row.asset = row.taker_asset_id ∧
        row.size = (row.taker_amount_raw : ℚ) / (10 : ℚ) ^ ExportScript.USDC_DECIMALS ∧
        row.notional = (row.maker_amount_raw : ℚ) / (10 : ℚ) ^ ExportScript.USDC_DECIMALS)) ∧
    (∀ (resolve : Nat → Option (StreamMarket × List Char))
      (decoded : Chain.DecodedOrderFilledLog) (bts rms : Int) (row : StreamRow),
      normalize_trade resolve decoded bts rms = some row →
      ((resolve decoded.maker_asset_id).isSome = true ∧ row.side = Side.SELL ∧
        row.asset = decoded.maker_asset_id ∧
        row.size = Chain.scaled_amount decoded.maker_amount_raw ∧
        row.notional = (if decoded.taker_asset_id = Chain.USDC_ASSET_ID
          then some (Chain.scaled_amount decoded.taker_amount_raw) else none)) ∨
      (resolve decoded.maker_asset_id = none ∧
        (resolve decoded.taker_asset_id).isSome = true ∧ row.side = Side.BUY ∧
        row.asset = decoded.taker_asset_id ∧
        row.size = Chain.scaled_amount decoded.taker_amount_raw ∧
        row.notional = (if decoded.maker_asset_id = Chain.USDC_ASSET_ID
          then some (Chain.scaled_amount decoded.maker_amount_raw) else none))) := by
  constructor
  · intro log slug cond tokens btime row h
    obtain ⟨ma, ta, mam, tam, fee, maker, hcase⟩ := ExportScript.normalize_from_log_inv h
    rcases hcase with ⟨hma, hta, hc⟩ | ⟨-, hta, hma, hc⟩
    · obtain ⟨hside, hasset, hsize, hnot, -, hrma, hrta, hrmam, hrtam, -⟩ :=
        ExportScript.normalize_classified_inv hc
      exact Or.inl ⟨by rw [hrma]; exact hma, by rw [hrta]; exact hta, hside,
        by rw [hasset, hrma], by rw [hsize, hrmam], by rw [hnot, hrtam]⟩
    · obtain ⟨hside, hasset, hsize, hnot, -, hrma, hrta, hrmam, hrtam, -⟩ :=
        ExportScript.normalize_classified_inv hc
      exact Or.inr ⟨by rw [hrta]; exact hta, by rw [hrma]; exact hma, hside,
        by rw [hasset, hrta], by rw [hsize, hrtam], by rw [hnot, hrmam]⟩
  · intro resolve decoded bts rms row h
    unfold normalize_trade at h
    split at h
    · exact absurd h (by simp)
    · rename_i market outcome heqm
      obtain ⟨-, hsize, hside, hasset, -, -, hnot⟩ := normalize_trade_core_inv h
      exact Or.inl ⟨by rw [heqm]; rfl, hside, hasset, hsize, hnot⟩
    · rename_i market outcome hnone htaker
      obtain ⟨-, hsize, hside, hasset, -, -, hnot⟩ := normalize_trade_core_inv h
      exact Or.inr ⟨hnone, by rw [htaker]; rfl, hside, hasset, hsize, hnot⟩

/-- Witness for the amended C6: the batch zero-size SELL emission and the
stream tracked-maker SELL emission both satisfy the classification
characterization. -/
theorem c6_classification_witness :
    (∀ row : ExportScript.BatchRow,
      ExportScript.normalize_trade_from_log c5Log "m-slug".toList "c-id".toList
          c5Tokens (fun _ => 0) = .ok (some row) →
      ((ExportScript.lookupOutcome c5Tokens row.maker_asset_id).isSome = true ∧
        row.taker_asset_id = ExportScript.USDC_ASSET_ID ∧ row.side = Side.SELL ∧
        row.asset = row.maker_asset_id ∧
        row.size = (row.maker_amount_raw : ℚ) / (10 : ℚ) ^ ExportScript.USDC_DECIMALS ∧
        row.notional = (row.taker_amount_raw : ℚ) / (10 : ℚ) ^ ExportScript.USDC_DECIMALS) ∨
      ((ExportScript.lookupOutcome c5Tokens row.taker_asset_id).isSome = true ∧
        row.maker_asset_id = ExportScript.USDC_ASSET_ID ∧ row.side = Side.BUY ∧
        row.asset = row.taker_asset_id ∧
        row.size = (row.taker_amount_raw : ℚ) / (10 : ℚ) ^ ExportScript.USDC_DECIMALS ∧
        row.notional = (row.maker_amount_raw : ℚ) / (10 : ℚ) ^ ExportScript.USDC_DECIMALS)) ∧
    (∀ row : StreamRow, normalize_trade c6Resolve c6Decoded 1700000000 5 = some row →
      ((c6Resolve c6Decoded.maker_asset_id).isSome = true ∧ row.side = Side.SELL ∧
        row.asset = c6Decoded.maker_asset_id ∧
        row.size = Chain.scaled_amount c6Decoded.maker_amount_raw ∧
        row.notional = (if c6Decoded.taker_asset_id = Chain.USDC_ASSET_ID
          then some (Chain.scaled_amount c6Decoded.taker_amount_raw) else none)) ∨
      (c6Resolve c6Decoded.maker_asset_id = none ∧
        (c6Resolve c6Decoded.taker_asset_id).isSome = true ∧ row.side = Side.BUY ∧
        row.asset = c6Decoded.taker_asset_id ∧
        row.size = Chain.scaled_amount c6Decoded.taker_amount_raw ∧
        row.notional = (if c6Decoded.maker_asset_id = Chain.USDC_ASSET_ID
          then some (Chain.scaled_amount c6Decoded.maker_amount_raw) else none))) :=
  ⟨fun row => c6_classification.1 c5Log "m-slug".toList "c-id".toList c5Tokens
     (fun _ => 0) row,
   fun row => c6_classification.2 c6Resolve c6Decoded 1700000000 5 row⟩

/-! ### The bounded FIFO seen-set (`_is_seen_log_uid`) -/

/-- `trade_streamer.py`: `SEEN_LOG_UID_LIMIT`. -/
def SEEN_LOG_UID_LIMIT : Nat := 100000

/-- State change of one `_is_seen_log_uid(uid)` call, queue only: the
mirror hash-set always holds exactly the deque's elements (every `append`
is paired with `add`, every `popleft` with `discard`, and the deque never
holds duplicates), so membership in the queue models membership in the
set.  A seen uid leaves the state unchanged; a fresh uid evicts the oldest
entry when the window is full and is appended.  Uids (`tx_hash:log_index`
strings) are modelled as naturals. -/
def stepQueue (cap : Nat) (q : List Nat) (uid : Nat) : List Nat :=
  if uid ∈ q then q
  else (if cap ≤ q.length then q.tail else q) ++ [uid]

/-- Final seen-window after processing `us`. -/
def runQueue (cap : Nat) : List Nat → List Nat → List Nat
  | q, [] => q
  | q, u :: us => runQueue cap (stepQueue cap q u) us

/-- The uids for which `_is_seen_log_uid` returns `False` while processing
`us` from window `q` — exactly the trades `_process_block` appends to the
CSV and broadcasts. -/
def runEmits (cap : Nat) : List Nat → List Nat → List Nat
  | _, [] => []
  | q, u :: us => (if u ∈ q then [] else [u]) ++ runEmits cap (stepQueue cap q u) us

theorem runEmits_append (cap : Nat) (xs ys : List Nat) :
    ∀ q, runEmits cap q (xs ++ ys) =
      runEmits cap q xs ++ runEmits cap (runQueue cap q xs) ys := by
  induction xs with
  | nil => intro q; simp [runEmits, runQueue]
  | cons x xs ih =>
    intro q
    rw [List.cons_append]
    show (if x ∈ q then [] else [x]) ++ runEmits cap (stepQueue cap q x) (xs ++ ys) =
      ((if x ∈ q then [] else [x]) ++ runEmits cap (stepQueue cap q x) xs) ++
        runEmits cap (runQueue cap (stepQueue cap q x) xs) ys
    rw [ih, List.append_assoc]

/-- Processing a run of uids that are pairwise distinct and all fresh:
every one is emitted and the final window is the capacity-sized suffix of
the processed stream. -/
theorem runFresh (cap : Nat) (hcap : 1 ≤ cap) :
    ∀ (us q : List Nat), us.Nodup → (∀ u ∈ us, u ∉ q) → q.length ≤ cap →
      runEmits cap q us = us ∧
        runQueue cap q us = (q ++ us).drop (q.length + us.length - cap) := by
  intro us
  induction us with
  | nil =>
    intro q _ _ hlen
    refine ⟨rfl, ?_⟩
    have hz : q.length + ([] : List Nat).length - cap = 0 := by
      simp only [List.length_nil]
      omega
    rw [hz, List.append_nil, List.drop_zero]
    rfl
  | cons u us ih =>
    intro q hnd hfresh hlen
    have hu : u ∉ q := hfresh u (List.mem_cons_self ..)
    have hstep : stepQueue cap q u = (if cap ≤ q.length then q.tail else q) ++ [u] := by
      unfold stepQueue
      rw [if_neg hu]
    have hihargs : ∀ v ∈ us, v ∉ stepQueue cap q u := by
      intro v hv
      rw [hstep]
      rcases le_or_lt cap q.length with hc | hc
      · rw [if_pos hc]
        intro hmem
        rcases List.mem_append.mp hmem with hmem | hmem
        · exact hfresh v (List.mem_cons_of_mem _ hv) (List.mem_of_mem_tail hmem)
        · rw [List.mem_singleton] at hmem
          subst hmem
          exact (List.nodup_cons.mp hnd).1 hv
      · rw [if_neg (by omega)]
        intro hmem
        rcases List.mem_append.mp hmem with hmem | hmem
        · exact hfresh v (List.mem_cons_of_mem _ hv) hmem
        · rw [List.mem_singleton] at hmem
          subst hmem
          exact (List.nodup_cons.mp hnd).1 hv
    rcases le_or_lt cap q.length with hc | hc
    · have hqlen : q.length = cap := le_antisymm hlen hc
      have hqne : q ≠ [] := by
        intro hnil
        rw [hnil] at hqlen
        simp at hqlen
        omega
      have hstep' : stepQueue cap q u = q.tail ++ [u] := by rw [hstep, if_pos hc]
      have hlen' : (stepQueue cap q u).length ≤ cap := by
        rw [hstep']
        simp [List.length_tail]
        omega
      obtain ⟨hemits, hqueue⟩ := ih (stepQueue cap q u) (List.nodup_cons.mp hnd).2
        hihargs hlen'
      refine ⟨?_, ?_⟩
      · unfold runEmits
        rw [if_neg hu, hemits]
        rfl
      · show runQueue cap (stepQueue cap q u) us = _
        rw [hqueue, hstep']
        have htail : q.tail ++ [u] ++ us = (q ++ u :: us).drop 1 := by
          rcases q with - | ⟨a, q'⟩
          · exact absurd rfl hqne
          · simp
        rw [htail, List.drop_drop]
        congr 1
        simp only [hstep', List.length_append, List.length_tail, List.length_cons,
          List.length_singleton, List.length_nil]
        omega
    · have hstep' : stepQueue cap q u = q ++ [u] := by rw [hstep, if_neg (by omega)]
      have hlen' : (stepQueue cap q u).length ≤ cap := by
        rw [hstep']
        simp
        omega
      obtain ⟨hemits, hqueue⟩ := ih (stepQueue cap q u) (List.nodup_cons.mp hnd).2
        hihargs hlen'
      refine ⟨?_, ?_⟩
      · unfold runEmits
        rw [if_neg hu, hemits]
        rfl
      · show runQueue cap (stepQueue cap q u) us = _
        rw [hqueue, hstep']
        have : q ++ [u] ++ us = q ++ u :: us := by simp
        rw [this]
        congr 1
        simp [List.length_append, List.length_cons]
        omega


theorem nodup_snoc {l : List Nat} {v : Nat} (h : l.Nodup) (hv : v ∉ l) :
    (l ++ [v]).Nodup := by
  rw [List.nodup_append]
  refine ⟨h, List.nodup_singleton v, ?_⟩
  intro x hx hxv
  rw [List.mem_singleton] at hxv
  subst hxv
  exact hv hx

/-- While a uid sits in the seen-window at depth `pre.length` from the
front, it is not emitted within the next `cap - |window| + pre.length + 1`
emissions: eviction of the oldest entry happens only once per emission, and
only at capacity. -/
theorem runEmits_not_in_window (cap : Nat) :
    ∀ (us pre post : List Nat) (u : Nat),
      (pre ++ u :: post).Nodup → (pre ++ u :: post).length ≤ cap →
      u ∉ (runEmits cap (pre ++ u :: post) us).take
        (cap - (pre ++ u :: post).length + pre.length + 1) := by
  intro us
  induction us with
  | nil => intro pre post u _ _; simp [runEmits]
  | cons v us ih =>
    intro pre post u hnd hlen
    by_cases hv : v ∈ pre ++ u :: post
    · unfold runEmits stepQueue
      rw [if_pos hv, if_pos hv, List.nil_append]
      exact ih pre post u hnd hlen
    · have hvu : u ≠ v := fun he =>
        hv (he ▸ List.mem_append.mpr (Or.inr (List.mem_cons_self ..)))
      have hvpost : v ∉ u :: post := fun hm => hv (List.mem_append.mpr (Or.inr hm))
      have hvpre : v ∉ pre := fun hm => hv (List.mem_append.mpr (Or.inl hm))
      unfold runEmits stepQueue
      rw [if_neg hv, if_neg hv, List.singleton_append]
      rcases le_or_lt cap (pre ++ u :: post).length with hc | hc
      · rw [if_pos hc]
        have hqlen : (pre ++ u :: post).length = cap := le_antisymm hlen hc
        have hbound : cap - (pre ++ u :: post).length + pre.length + 1 =
            pre.length + 1 := by omega
        rw [hbound, List.take_succ_cons]
        rcases pre with - | ⟨a, pre'⟩
        · simp only [List.length_nil, List.take_zero]
          intro hmem
          rcases List.mem_cons.mp hmem with he | he
          · exact hvu he
          · simp at he
        · have hshape : ((a :: pre') ++ u :: post).tail ++ [v] =
              pre' ++ u :: (post ++ [v]) := by simp
          rw [hshape]
          have hnd0 : (pre' ++ u :: post).Nodup := by
            have hcons : (a :: (pre' ++ u :: post)).Nodup := by simpa using hnd
            exact (List.nodup_cons.mp hcons).2
          have hv0 : v ∉ pre' ++ u :: post := by
            intro hm
            rcases List.mem_append.mp hm with hm | hm
            · exact hvpre (List.mem_cons_of_mem _ hm)
            · exact hvpost hm
          have hnd' : (pre' ++ u :: (post ++ [v])).Nodup := by
            have hap := nodup_snoc hnd0 hv0
            simpa [List.append_assoc] using hap
          have hlen' : (pre' ++ u :: (post ++ [v])).length ≤ cap := by
            simp only [List.length_append, List.length_cons, List.length_nil,
              List.length_singleton] at hqlen ⊢
            omega
          have hih := ih pre' (post ++ [v]) u hnd' hlen'
          have hb2 : cap - (pre' ++ u :: (post ++ [v])).length + pre'.length + 1 =
              pre'.length + 1 := by
            simp only [List.length_append, List.length_cons, List.length_nil,
              List.length_singleton] at hqlen ⊢
            omega
          rw [hb2] at hih
          intro hmem
          rcases List.mem_cons.mp hmem with he | he
          · exact hvu he
          · exact hih (by simpa using he)
      · rw [if_neg (by omega)]
        have hshape : (pre ++ u :: post) ++ [v] = pre ++ u :: (post ++ [v]) := by
          simp
        rw [hshape]
        have hnd' : (pre ++ u :: (post ++ [v])).Nodup := by
          have hap := nodup_snoc hnd hv
          simpa [List.append_assoc] using hap
        have hlen' : (pre ++ u :: (post ++ [v])).length ≤ cap := by
          simp only [List.length_append, List.length_cons, List.length_nil,
            List.length_singleton] at hc ⊢
          omega
        have hih := ih pre (post ++ [v]) u hnd' hlen'
        have hb2 : cap - (pre ++ u :: (post ++ [v])).length + pre.length + 1 =
            cap - (pre ++ u :: post).length + pre.length := by
          simp only [List.length_append, List.length_cons, List.length_nil,
            List.length_singleton] at hc ⊢
          omega
        rw [hb2] at hih
        rw [List.take_succ_cons]
        intro hmem
        rcases List.mem_cons.mp hmem with he | he
        · exact hvu he
        · exact hih he

theorem stepQueue_nodup (cap : Nat) (hcap : 1 ≤ cap) (q : List Nat) (v : Nat)
    (hnd : q.Nodup) (hlen : q.length ≤ cap) :
    (stepQueue cap q v).Nodup ∧ (stepQueue cap q v).length ≤ cap := by
  unfold stepQueue
  by_cases hv : v ∈ q
  · rw [if_pos hv]
    exact ⟨hnd, hlen⟩
  · rw [if_neg hv]
    rcases le_or_lt cap q.length with hc | hc
    · rw [if_pos hc]
      have hqne : q ≠ [] := by
        intro h
        subst h
        simp at hc
        omega
      have htl : q.tail.Nodup := by
        rcases q with - | ⟨a, l⟩
        · simp
        · exact (List.nodup_cons.mp hnd).2
      refine ⟨nodup_snoc htl (fun hm => hv (List.mem_of_mem_tail hm)), ?_⟩
      rw [List.length_append, List.length_tail]
      simp only [List.length_singleton]
      omega
    · rw [if_neg (by omega)]
      refine ⟨nodup_snoc hnd hv, ?_⟩
      rw [List.length_append]
      simp only [List.length_singleton]
      omega

/-- Two emissions of the same uid are separated by at least `cap` other
emissions. -/
theorem runEmits_sep_aux (cap : Nat) (hcap : 1 ≤ cap) :
    ∀ (us q : List Nat), q.Nodup → q.length ≤ cap →
      ∀ i j u, i < j → (runEmits cap q us).get? i = some u →
        (runEmits cap q us).get? j = some u → i + cap < j := by
  intro us
  induction us with
  | nil => intro q _ _ i j u _ hi _; simp [runEmits] at hi
  | cons v us ih =>
    intro q hnd hlen i j u hij hi hj
    by_cases hv : v ∈ q
    · unfold runEmits stepQueue at hi hj
      rw [if_pos hv, if_pos hv, List.nil_append] at hi hj
      exact ih q hnd hlen i j u hij hi hj
    · unfold runEmits at hi hj
      rw [if_neg hv, List.singleton_append] at hi hj
      obtain ⟨hnd', hlen'⟩ := stepQueue_nodup cap hcap q v hnd hlen
      rcases i with - | i'
      · have hu : u = v := by
          simp only [List.get?_cons_zero] at hi
          exact (Option.some.inj hi).symm
        subst hu
        rcases j with - | j'
        · omega
        · simp only [List.get?_cons_succ] at hj
          have hq' : stepQueue cap q u = (if cap ≤ q.length then q.tail else q) ++ u :: [] := by
            unfold stepQueue
            rw [if_neg hv]
          rw [hq'] at hnd' hlen' hj
          have hwin := runEmits_not_in_window cap us
            (if cap ≤ q.length then q.tail else q) [] u hnd' hlen'
          have hb : cap - ((if cap ≤ q.length then q.tail else q) ++ u :: []).length +
              (if cap ≤ q.length then q.tail else q).length + 1 = cap := by
            rw [List.length_append] at hlen' ⊢
            simp only [List.length_cons, List.length_nil] at hlen' ⊢
            omega
          rw [hb] at hwin
          by_contra hlt
          have hj'lt : j' < cap := by omega
          have hmem : u ∈ (runEmits cap ((if cap ≤ q.length then q.tail else q) ++ u :: []) us).take cap := by
            have hgt : ((runEmits cap ((if cap ≤ q.length then q.tail else q) ++ u :: []) us).take cap).get? j' =
                some u := by
              rw [List.get?_take hj'lt]
              exact hj
            exact List.get?_mem hgt
          exact hwin hmem
      · rcases j with - | j'
        · omega
        · simp only [List.get?_cons_succ] at hi hj
          have hrec := ih (stepQueue cap q v) hnd' hlen' i' j' u (by omega) hi hj
          omega

end Streamer

/-! ## Claim C8 — dedup of `(tx_hash, log_index)` identities -/

namespace ExportScript

/-- The log identity of a batch row.  The source's `log_uid` string
`f"{tx_hash}:{log_index}"` determines and is determined by this pair
(`tx_hash` is lowercase hex, colon-free). -/
def rowUid (r : BatchRow) : List Char × Nat :=
  (r.tx_hash, r.log_index)

/-- One step of `deduped[row["log_uid"]] = row` on an insertion-ordered
dict modelled as an association list: replace in place if present, append
otherwise. -/
def dedupeInsert (d : List ((List Char × Nat) × BatchRow)) (r : BatchRow) :
    List ((List Char × Nat) × BatchRow) :=
  if d.any (fun p => decide (p.1 = rowUid r)) then
    d.map (fun p => if p.1 = rowUid r then (rowUid r, r) else p)
  else d ++ [(rowUid r, r)]

/-- The `main` dedupe pass: `deduped: dict[str, dict] = {}` then
`deduped[row["log_uid"]] = row` over all scanned rows, keeping dict
values in insertion order. -/
def dedupe_rows (rows : List BatchRow) : List BatchRow :=
  (rows.foldl dedupeInsert []).map Prod.snd

/-- The `sorted(..., key=(trade_timestamp, block_number, log_index))`
comparison of `main`. -/
def rowLe (a b : BatchRow) : Bool :=
  decide (a.trade_timestamp < b.trade_timestamp) ||
    (decide (a.trade_timestamp = b.trade_timestamp) &&
      (decide (a.block_number < b.block_number) ||
        (decide (a.block_number = b.block_number) && decide (a.log_index ≤ b.log_index))))

/-- The final row list written by `main`: deduped by `log_uid` then sorted
by `(trade_timestamp, block_number, log_index)`. -/
def sorted_rows (rows : List BatchRow) : List BatchRow :=
  (dedupe_rows rows).mergeSort rowLe

theorem dedupeInsert_inv (d : List ((List Char × Nat) × BatchRow)) (r : BatchRow)
    (hnd : (d.map Prod.fst).Nodup) (hfst : ∀ p ∈ d, rowUid p.2 = p.1) :
    ((dedupeInsert d r).map Prod.fst).Nodup ∧
      ∀ p ∈ dedupeInsert d r, rowUid p.2 = p.1 := by
  unfold dedupeInsert
  split
  · constructor
    · have hkeys : (d.map (fun p => if p.1 = rowUid r then (rowUid r, r) else p)).map
          Prod.fst = d.map Prod.fst := by
        rw [List.map_map]
        refine List.map_congr_left ?_
        intro p _
        by_cases hp : p.1 = rowUid r
        · simp [hp]
        · simp [hp]
      rw [hkeys]
      exact hnd
    · intro p hp
      rw [List.mem_map] at hp
      obtain ⟨q, hq, hqe⟩ := hp
      by_cases hq1 : q.1 = rowUid r
      · rw [if_pos hq1] at hqe
        rw [← hqe]
      · rw [if_neg hq1] at hqe
        rw [← hqe]
        exact hfst q hq
  · rename_i hnotin
    constructor
    · rw [List.map_append, List.nodup_append]
      refine ⟨hnd, by simp, ?_⟩
      intro x hx hxe
      simp only [List.map_cons, List.map_nil, List.mem_singleton] at hxe
      rw [List.mem_map] at hx
      obtain ⟨p, hp, hpe⟩ := hx
      rw [List.any_eq_true] at hnotin
      exact hnotin ⟨p, hp, by rw [decide_eq_true_iff, hpe, hxe]⟩
    · intro p hp
      rw [List.mem_append] at hp
      rcases hp with hp | hp
      · exact hfst p hp
      · rw [List.mem_singleton] at hp
        rw [hp]

theorem dedupe_fold_inv (rows : List BatchRow) :
    ∀ d, (d.map Prod.fst).Nodup → (∀ p ∈ d, rowUid p.2 = p.1) →
      ((rows.foldl dedupeInsert d).map Prod.fst).Nodup ∧
        ∀ p ∈ rows.foldl dedupeInsert d, rowUid p.2 = p.1 := by
  induction rows with
  | nil => intro d h1 h2; exact ⟨h1, h2⟩
  | cons r rows ih =>
    intro d h1 h2
    obtain ⟨h1', h2'⟩ := dedupeInsert_inv d r h1 h2
    exact ih _ h1' h2'

end ExportScript

set_option maxRecDepth 10000 in
/-- C8 counterexample: the real-time bounded seen-set does not prevent all
duplicate emissions within a single run.  After the `SEEN_LOG_UID_LIMIT + 1`
distinct uids `0..100000` are processed, uid `0` has been evicted from the
FIFO window, so a second occurrence of uid `0` is emitted (appended and
broadcast) again: the emission trace holds uid `0` at the two distinct
positions `0` and `100001`, refuting "no two emitted trades share the same
`(tx_hash, log_index)` pair" for the real-time path. -/
theorem c8_counterexample :
    (Streamer.runEmits Streamer.SEEN_LOG_UID_LIMIT []
        (List.range (Streamer.SEEN_LOG_UID_LIMIT + 1) ++ [0])).get? 0 = some 0 ∧
      (Streamer.runEmits Streamer.SEEN_LOG_UID_LIMIT []
        (List.range (Streamer.SEEN_LOG_UID_LIMIT + 1) ++ [0])).get?
          (Streamer.SEEN_LOG_UID_LIMIT + 1) = some 0 := by
  have hcap : 1 ≤ Streamer.SEEN_LOG_UID_LIMIT := by
    unfold Streamer.SEEN_LOG_UID_LIMIT
    omega
  obtain ⟨hemits, hqueue⟩ := Streamer.runFresh Streamer.SEEN_LOG_UID_LIMIT hcap
    (List.range (Streamer.SEEN_LOG_UID_LIMIT + 1)) [] (List.nodup_range _)
    (by simp) (by simp)
  rw [Streamer.runEmits_append, hemits, hqueue]
  have hdrop : (([] : List Nat) ++ List.range (Streamer.SEEN_LOG_UID_LIMIT + 1)).drop
      (([] : List Nat).length + (List.range (Streamer.SEEN_LOG_UID_LIMIT + 1)).length -
        Streamer.SEEN_LOG_UID_LIMIT) =
      (List.range Streamer.SEEN_LOG_UID_LIMIT).map Nat.succ := by
    rw [List.nil_append, List.length_range, List.range_succ_eq_map]
    simp
  rw [hdrop]
  have hzero : (0 : Nat) ∉ (List.range Streamer.SEEN_LOG_UID_LIMIT).map Nat.succ := by
    intro hm
    rw [List.mem_map] at hm
    obtain ⟨x, -, hx⟩ := hm
    exact Nat.succ_ne_zero x hx
  have hlast : Streamer.runEmits Streamer.SEEN_LOG_UID_LIMIT
      ((List.range Streamer.SEEN_LOG_UID_LIMIT).map Nat.succ) [0] = [0] := by
    unfold Streamer.runEmits
    rw [if_neg hzero]
    rfl
  rw [hlast]
  constructor
  · rw [List.get?_append (by rw [List.length_range]; omega)]
    rw [List.get?_range (by omega)]
  · have hrlen : (List.range (Streamer.SEEN_LOG_UID_LIMIT + 1)).length ≤
        Streamer.SEEN_LOG_UID_LIMIT + 1 := by
      rw [List.length_range]
    rw [List.get?_append_right hrlen, List.length_range, Nat.sub_self]
    rfl

/-- C8 (amended): within a single run, the batch path's final rows are
deduplicated by `log_uid`, so no two of them share a `(tx_hash, log_index)`
pair; the real-time path's bounded FIFO seen-set prevents a log identity
from being appended or broadcast twice only while it stays inside the
window — two emissions of the same identity are always separated by at
least the window capacity many other emitted identities (so duplicates can
recur only after `SEEN_LOG_UID_LIMIT` distinct intervening trades). -/
theorem c8_unique_log_uids :
    (∀ rows : List ExportScript.BatchRow,
      ((ExportScript.sorted_rows rows).map ExportScript.rowUid).Nodup) ∧
    (∀ (cap : Nat) (us : List Nat) (i j u : Nat), 1 ≤ cap → i < j →
      (Streamer.runEmits cap [] us).get? i = some u →
      (Streamer.runEmits cap [] us).get? j = some u → i + cap < j) := by
  constructor
  · intro rows
    obtain ⟨hnd, hfst⟩ := ExportScript.dedupe_fold_inv rows [] (by simp) (by simp)
    have hmap : (ExportScript.dedupe_rows rows).map ExportScript.rowUid =
        (rows.foldl ExportScript.dedupeInsert []).map Prod.fst := by
      unfold ExportScript.dedupe_rows
      rw [List.map_map]
      exact List.map_congr_left (fun p hp => hfst p hp)
    have hperm : List.Perm (ExportScript.sorted_rows rows)
        (ExportScript.dedupe_rows rows) :=
      List.mergeSort_perm _ _
    have hpm : List.Perm ((ExportScript.sorted_rows rows).map ExportScript.rowUid)
        ((ExportScript.dedupe_rows rows).map ExportScript.rowUid) :=
      List.Perm.map _ hperm
    rw [List.Perm.nodup_iff hpm, hmap]
    exact hnd
  · intro cap us i j u hcap hij hi hj
    exact Streamer.runEmits_sep_aux cap hcap us [] (by simp) (by simp) i j u hij hi hj

/-- Witness for the amended C8: with window capacity 2 the trace of
`[0, 1, 2, 0]` emits uid 0 at positions 0 and 3, and the theorem's
separation bound `0 + 2 < 3` holds. -/
theorem c8_unique_log_uids_witness :
    (Streamer.runEmits 2 [] [0, 1, 2, 0]).get? 0 = some 0 ∧
      (Streamer.runEmits 2 [] [0, 1, 2, 0]).get? 3 = some 0 ∧ 0 + 2 < 3 :=
  ⟨by decide, by decide,
    c8_unique_log_uids.2 2 [0, 1, 2, 0] 0 3 0 (by decide) (by decide)
      (by decide) (by decide)⟩

/-! ## Websocket reconnect backoff (`ws_connection.py` / `trade_streamer.py`)

`ClobWebSocket._connect_loop` and `PolygonHeadSubscriber._connect_loop`
share the same structure and constants: each iteration runs one websocket
session (`run_forever`); if the session had a successful open, `_on_open`
reset the delay state to the base value; when the session ends the loop
waits the current delay and then doubles it, capped. -/

namespace WsConn

/-- `RECONNECT_BASE_DELAY_SECONDS = 1.0` (both modules). -/
def RECONNECT_BASE_DELAY_SECONDS : ℚ := 1

/-- `RECONNECT_MAX_DELAY_SECONDS = 60.0` (both modules). -/
def RECONNECT_MAX_DELAY_SECONDS : ℚ := 60

/-- Outcome of one `run_forever` session: it either opened successfully at
some point (firing `_on_open`, which resets the delay) before closing, or
the connection attempt failed outright. -/
inductive ConnEvent
  | opened
  | failedAttempt
deriving DecidableEq, Repr

/-- The delay update performed after each wait:
`min(delay * 2, RECONNECT_MAX_DELAY_SECONDS)`. -/
def nextReconnectDelay (d : ℚ) : ℚ :=
  min (d * 2) RECONNECT_MAX_DELAY_SECONDS

/-- Delay state at the bottom of an iteration: a session with a successful
open left it reset to the base value. -/
def sessionDelay (d : ℚ) : ConnEvent → ℚ
  | .opened => RECONNECT_BASE_DELAY_SECONDS
  | .failedAttempt => d

/-- The sequence of waits `_connect_loop` performs over a run of session
outcomes, starting from delay state `d` (the base delay at
construction). -/
def connectLoopWaits (d : ℚ) : List ConnEvent → List ℚ
  | [] => []
  | e :: es =>
    sessionDelay d e :: connectLoopWaits (nextReconnectDelay (sessionDelay d e)) es

theorem waits_fail_run (d0 : ℚ) :
    ∀ (M N : Nat), N < M →
      (connectLoopWaits d0 (List.replicate M ConnEvent.failedAttempt)).get? N =
        some (nextReconnectDelay^[N] d0) := by
  intro M
  induction M generalizing d0 with
  | zero => intro N h; omega
  | succ M ih =>
    intro N h
    rw [List.replicate_succ]
    show (sessionDelay d0 .failedAttempt ::
      connectLoopWaits (nextReconnectDelay (sessionDelay d0 .failedAttempt))
        (List.replicate M ConnEvent.failedAttempt)).get? N = _
    rcases N with - | N'
    · rfl
    · rw [List.get?_cons_succ]
      have hsd : sessionDelay d0 ConnEvent.failedAttempt = d0 := rfl
      rw [hsd, ih (nextReconnectDelay d0) N' (by omega),
        ← Function.iterate_succ_apply]

theorem delay_closed_form :
    ∀ N : Nat, nextReconnectDelay^[N] RECONNECT_BASE_DELAY_SECONDS =
      min (RECONNECT_BASE_DELAY_SECONDS * 2 ^ N) RECONNECT_MAX_DELAY_SECONDS := by
  intro N
  induction N with
  | zero =>
    simp only [Function.iterate_zero, id_eq, pow_zero, mul_one]
    rw [min_eq_left]
    unfold RECONNECT_BASE_DELAY_SECONDS RECONNECT_MAX_DELAY_SECONDS
    norm_num
  | succ n ih =>
    rw [Function.iterate_succ_apply', ih]
    unfold nextReconnectDelay RECONNECT_BASE_DELAY_SECONDS RECONNECT_MAX_DELAY_SECONDS
    unfold RECONNECT_BASE_DELAY_SECONDS RECONNECT_MAX_DELAY_SECONDS at ih
    rcases le_total ((1 : ℚ) * 2 ^ n) 60 with h | h
    · rw [min_eq_left h]
      rw [show (1 : ℚ) * 2 ^ n * 2 = 1 * 2 ^ (n + 1) by ring]
    · rw [min_eq_right h, min_eq_right (by norm_num), min_eq_right]
      calc (60 : ℚ) ≤ 1 * 2 ^ n := h
        _ ≤ 1 * 2 ^ (n + 1) := by
            rw [one_mul, one_mul]
            exact pow_le_pow_right₀ (by norm_num) (by omega)

/-- C9 counterexample: from a cold start (delay state at the base value), a
single consecutive connection failure is followed by a wait of
`RECONNECT_BASE_DELAY_SECONDS = 1.0` — not `min(base * 2^1, cap) = 2.0` as
the claim's formula demands for `N = 1` consecutive failures. -/
theorem c9_counterexample :
    connectLoopWaits RECONNECT_BASE_DELAY_SECONDS [ConnEvent.failedAttempt] =
      [RECONNECT_BASE_DELAY_SECONDS] ∧
      RECONNECT_BASE_DELAY_SECONDS ≠
        min (RECONNECT_BASE_DELAY_SECONDS * 2 ^ 1) RECONNECT_MAX_DELAY_SECONDS := by
  refine ⟨rfl, ?_⟩
  unfold RECONNECT_BASE_DELAY_SECONDS RECONNECT_MAX_DELAY_SECONDS
  rw [min_eq_left (by norm_num)]
  norm_num

/-- C9 (amended): the reconnect delay doubles from the base with a 60-second
cap and is reset on every successful open, but the exponent counts waits
since the last reset, not failures: (1) from a cold start, the wait after
the `(N+1)`-th consecutive failure is `min(base * 2^N, cap)`; (2) after a
successful session, the wait after the `(N+1)`-th subsequent consecutive
failure is `min(base * 2^(N+1), cap)` (here the claim's `2^N`-per-`N`
failures formula does hold, because the post-session wait already doubled
the state); (3) the wait right after a session with a successful open is
the base delay (the reset); (4) no wait ever exceeds the cap. -/
theorem c9_reconnect_backoff :
    (∀ (M N : Nat), N < M →
      (connectLoopWaits RECONNECT_BASE_DELAY_SECONDS
        (List.replicate M ConnEvent.failedAttempt)).get? N =
        some (min (RECONNECT_BASE_DELAY_SECONDS * 2 ^ N) RECONNECT_MAX_DELAY_SECONDS)) ∧
    (∀ (d : ℚ) (M N : Nat), N < M →
      (connectLoopWaits d
        (ConnEvent.opened :: List.replicate M ConnEvent.failedAttempt)).get? (N + 1) =
        some (min (RECONNECT_BASE_DELAY_SECONDS * 2 ^ (N + 1))
          RECONNECT_MAX_DELAY_SECONDS)) ∧
    (∀ (d : ℚ) (es : List ConnEvent),
      (connectLoopWaits d (ConnEvent.opened :: es)).get? 0 =
        some RECONNECT_BASE_DELAY_SECONDS) ∧
    (∀ (d : ℚ) (es : List ConnEvent) (w : ℚ),
      RECONNECT_BASE_DELAY_SECONDS ≤ d → d ≤ RECONNECT_MAX_DELAY_SECONDS →
      w ∈ connectLoopWaits d es → w ≤ RECONNECT_MAX_DELAY_SECONDS) := by
  refine ⟨?_, ?_, ?_, ?_⟩
  · intro M N h
    rw [waits_fail_run _ M N h, delay_closed_form]
  · intro d M N h
    show (sessionDelay d .opened ::
      connectLoopWaits (nextReconnectDelay (sessionDelay d .opened))
        (List.replicate M ConnEvent.failedAttempt)).get? (N + 1) = _
    rw [List.get?_cons_succ]
    have hsess : sessionDelay d ConnEvent.opened = RECONNECT_BASE_DELAY_SECONDS := rfl
    rw [hsess, waits_fail_run _ M N h, ← Function.iterate_succ_apply,
      delay_closed_form]
  · intro d es
    rfl
  · intro d es
    induction es generalizing d with
    | nil => intro w _ _ hw; simp [connectLoopWaits] at hw
    | cons e es ih =>
      intro w hbase hcap hw
      unfold connectLoopWaits at hw
      rcases List.mem_cons.mp hw with hw | hw
      · subst hw
        cases e with
        | opened =>
          show RECONNECT_BASE_DELAY_SECONDS ≤ _
          unfold RECONNECT_BASE_DELAY_SECONDS RECONNECT_MAX_DELAY_SECONDS
          norm_num
        | failedAttempt => exact hcap
      · have hbase' : RECONNECT_BASE_DELAY_SECONDS ≤
            nextReconnectDelay (sessionDelay d e) := by
          have hsd : RECONNECT_BASE_DELAY_SECONDS ≤ sessionDelay d e := by
            cases e with
            | opened => exact le_refl _
            | failedAttempt => exact hbase
          unfold nextReconnectDelay RECONNECT_BASE_DELAY_SECONDS
            RECONNECT_MAX_DELAY_SECONDS
          unfold RECONNECT_BASE_DELAY_SECONDS at hsd
          rw [le_min_iff]
          constructor
          · linarith
          · norm_num
        have hcap' : nextReconnectDelay (sessionDelay d e) ≤
            RECONNECT_MAX_DELAY_SECONDS :=
          min_le_right _ _
        exact ih _ w hbase' hcap' hw

/-- Witness for the amended C9: from a cold start, the third consecutive
failure waits `min(1 * 2^2, 60) = 4` seconds. -/
theorem c9_reconnect_backoff_witness :
    (connectLoopWaits RECONNECT_BASE_DELAY_SECONDS
      (List.replicate 3 ConnEvent.failedAttempt)).get? 2 =
      some (min (RECONNECT_BASE_DELAY_SECONDS * 2 ^ 2) RECONNECT_MAX_DELAY_SECONDS) :=
  c9_reconnect_backoff.1 3 2 (by omega)

end WsConn

/-! ## `market_tracker.py` — market expiry (`_check_expired`) -/

namespace Tracker

/-- The fields of `ActiveMarket` that `_check_expired` reads.  Slugs and
token ids are modelled as naturals; `end_date_ts` (a Python float, `0.0`
when `endDate` was missing or unparsable in `_parse_end_date`) as an exact
rational. -/
structure ActiveMarket where
  slug : Nat
  end_date_ts : ℚ
  token_ids : List Nat
deriving DecidableEq, Repr

/-- The tracker's shared state: the `slug -> market` dict in insertion
order, and the `token_id -> slug` index. -/
structure TrackerState where
  active : List ActiveMarket
  token_index : List (Nat × Nat)
deriving DecidableEq, Repr

/-- The expiry test of `_check_expired`:
`market.end_date_ts > 0 and now > market.end_date_ts + grace_period`. -/
def isExpired (now grace : ℚ) (m : ActiveMarket) : Bool :=
  decide (0 < m.end_date_ts) && decide (m.end_date_ts + grace < now)

/-- `market_tracker.py`: `MarketTracker._check_expired` — delete every
active market past its grace window (only when `end_date_ts > 0`) and pop
each of its token ids from the token index; return the expired list. -/
def check_expired (now grace : ℚ) (st : TrackerState) :
    TrackerState × List ActiveMarket :=
  ({ active := st.active.filter (fun m => ! isExpired now grace m)
     token_index := st.token_index.filter
       (fun e => ! (st.active.filter (isExpired now grace)).any
         (fun m => decide (e.1 ∈ m.token_ids))) },
   st.active.filter (isExpired now grace))

/-- C10: a market whose `endDate` was missing or unparsable (stored
`end_date_ts = 0`) is never expired: `_check_expired` leaves it in the
active set, never reports it expired, and — under the data-model invariant
that distinct markets hold disjoint token ids — leaves all of its
token-index entries in place, for every current time and grace period. -/
theorem c10_zero_end_date_never_expires
    (st : TrackerState) (now grace : ℚ) (m : ActiveMarket)
    (hm : m ∈ st.active) (hz : m.end_date_ts = 0)
    (hdisj : ∀ m2 ∈ st.active, m2.end_date_ts ≠ 0 →
      ∀ t ∈ m.token_ids, t ∉ m2.token_ids) :
    m ∈ (check_expired now grace st).1.active ∧
      m ∉ (check_expired now grace st).2 ∧
      ∀ e ∈ st.token_index, e.1 ∈ m.token_ids →
        e ∈ (check_expired now grace st).1.token_index := by
  have hnotexp : isExpired now grace m = false := by
    unfold isExpired
    rw [hz]
    simp
  refine ⟨?_, ?_, ?_⟩
  · exact List.mem_filter.mpr ⟨hm, by rw [hnotexp]; rfl⟩
  · intro hmem
    have := (List.mem_filter.mp hmem).2
    rw [hnotexp] at this
    exact Bool.false_ne_true this
  · intro e he het
    refine List.mem_filter.mpr ⟨he, ?_⟩
    rw [Bool.not_eq_true']
    rw [List.any_eq_false]
    intro m2 hm2
    have hm2' := List.mem_filter.mp hm2
    have hm2exp : isExpired now grace m2 = true := hm2'.2
    have hm2nz : m2.end_date_ts ≠ 0 := by
      unfold isExpired at hm2exp
      rw [Bool.and_eq_true, decide_eq_true_iff, decide_eq_true_iff] at hm2exp
      intro h0
      rw [h0] at hm2exp
      exact absurd hm2exp.1 (lt_irrefl 0)
    simp only [decide_eq_true_eq]
    exact hdisj m2 hm2'.1 hm2nz e.1 het

/-- Concrete tracker state for the C10 witness: `m0` has no parsable end
date (`end_date_ts = 0`, token 5), `m1` expires at `t = 100` (token 9). -/
def c10State : TrackerState :=
  { active := [⟨0, 0, [5]⟩, ⟨1, 100, [9]⟩]
    token_index := [(5, 0), (9, 1)] }

/-- Witness for C10 on `c10State` at `now = 10^9`, `grace = 120`: the
zero-end-date market stays active with its token entry intact. -/
theorem c10_zero_end_date_never_expires_witness :
    ⟨0, 0, [5]⟩ ∈ (check_expired 1000000000 120 c10State).1.active ∧
      (⟨0, 0, [5]⟩ : ActiveMarket) ∉ (check_expired 1000000000 120 c10State).2 ∧
      ∀ e ∈ c10State.token_index, e.1 ∈ [5] →
        e ∈ (check_expired 1000000000 120 c10State).1.token_index :=
  c10_zero_end_date_never_expires c10State 1000000000 120 ⟨0, 0, [5]⟩
    (by decide) (by decide) (by decide)

end Tracker

end PolyBtc
